import Mathlib

/-!
Shallow embedding of `recommendations.py`: similarity metrics over sparse
rating matrices, top-N neighbor ranking, matrix transposition, and
user and item based recommendation aggregation (direct and cached modes).

Python dictionaries are modelled as association lists that record
insertion order; dictionary well-formedness (distinct keys) appears as
`Nodup` hypotheses on the key lists.  Ratings are modelled as rationals;
`sim_pearson`, whose value involves a square root, lands in `ℝ`.
-/

/-- An inner rating dictionary: counterpart id to rating, in insertion order. -/
abbrev Ratings := List (String × ℚ)

/-- A ratings matrix: entity id to rating dictionary, in insertion order. -/
abbrev Prefs := List (String × Ratings)

/-- First-match association-list lookup, the model of Python `d[k]` / `k in d`. -/
def alookup : List (String × β) → String → Option β
  | [], _ => none
  | (k, v) :: rest, key => if k = key then some v else alookup rest key

/-- The key list of a dictionary, the model of Python `for k in d`. -/
def keys (l : List (String × β)) : List String := l.map Prod.fst

/-- Model of `prefs[p]`: the rating dictionary of entity `p` (empty when absent). -/
def getRatings (prefs : Prefs) (p : String) : Ratings :=
  (alookup prefs p).getD []

/-- Model of `prefs[p][item]`: the rating of `item` by `p` (0 when absent). -/
def rateOf (prefs : Prefs) (p : String) (item : String) : ℚ :=
  (alookup (getRatings prefs p) item).getD 0

/-- Model of `[item for item in prefs[p1] if item in prefs[p2]]`. -/
def shared (prefs : Prefs) (p1 p2 : String) : List String :=
  (keys (getRatings prefs p1)).filter
    (fun item => (alookup (getRatings prefs p2) item).isSome)

/-- Embedding of `sim_distance`: inverse-square-distance similarity over shared keys. -/
def sim_distance (prefs : Prefs) (p1 p2 : String) : ℚ :=
  let sh := shared prefs p1 p2
  if sh.length = 0 then 0
  else
    let sum_of_squares :=
      (sh.map (fun item => (rateOf prefs p1 item - rateOf prefs p2 item) ^ 2)).sum
    1 / (1 + sum_of_squares)

/-- Embedding of `sim_tanimoto`: shared-key count over union-key count. -/
def sim_tanimoto (prefs : Prefs) (p1 p2 : String) : ℚ :=
  let p1_len := (keys (getRatings prefs p1)).length
  let p2_len := (keys (getRatings prefs p2)).length
  let shared_len := (shared prefs p1 p2).length
  if p1_len = 0 ∨ p2_len = 0 ∨ shared_len = 0 then 0
  else (shared_len : ℚ) / ((p1_len : ℚ) + (p2_len : ℚ) - (shared_len : ℚ))

/-- Numerator of the Pearson score, a rational. -/
def pearson_num (prefs : Prefs) (p1 p2 : String) : ℚ :=
  let sh := shared prefs p1 p2
  let n : ℚ := sh.length
  let p1_sum := (sh.map (rateOf prefs p1)).sum
  let p2_sum := (sh.map (rateOf prefs p2)).sum
  let sum_product := (sh.map (fun i => rateOf prefs p1 i * rateOf prefs p2 i)).sum
  sum_product - p1_sum * p2_sum / n

/-- The square of the Pearson denominator, a rational. -/
def pearson_den_sq (prefs : Prefs) (p1 p2 : String) : ℚ :=
  let sh := shared prefs p1 p2
  let n : ℚ := sh.length
  let p1_sum := (sh.map (rateOf prefs p1)).sum
  let p2_sum := (sh.map (rateOf prefs p2)).sum
  let p1_sum_sq := (sh.map (fun i => rateOf prefs p1 i ^ 2)).sum
  let p2_sum_sq := (sh.map (fun i => rateOf prefs p2 i ^ 2)).sum
  (p1_sum_sq - p1_sum ^ 2 / n) * (p2_sum_sq - p2_sum ^ 2 / n)

/-- Embedding of `sim_pearson`: Pearson correlation over shared keys (0 on the degenerate
branches, exactly as the Python code returns 0 there). -/
noncomputable def sim_pearson (prefs : Prefs) (p1 p2 : String) : ℝ :=
  if (shared prefs p1 p2).length = 0 then 0
  else
    let denominator : ℝ := Real.sqrt ((pearson_den_sq prefs p1 p2 : ℚ) : ℝ)
    if denominator = 0 then 0 else ((pearson_num prefs p1 p2 : ℚ) : ℝ) / denominator

/-- The Python tuple order `(score, name) ≥ (score', name')` used by
`list.sort(reverse=True)`: descending lexicographic comparison. -/
def pairGe [LinearOrder α] (a b : α × String) : Prop :=
  b.1 < a.1 ∨ (b.1 = a.1 ∧ b.2 ≤ a.2)

instance [LinearOrder α] : DecidableRel (pairGe (α := α)) := fun _ _ => by
  unfold pairGe; infer_instance

instance [LinearOrder α] : IsTotal (α × String) pairGe := by
  constructor
  intro a b
  rcases lt_trichotomy a.1 b.1 with h | h | h
  · exact Or.inr (Or.inl h)
  · rcases le_total a.2 b.2 with h2 | h2
    · exact Or.inr (Or.inr ⟨h, h2⟩)
    · exact Or.inl (Or.inr ⟨h.symm, h2⟩)
  · exact Or.inl (Or.inl h)

instance [LinearOrder α] : IsTrans (α × String) pairGe := by
  constructor
  intro a b c hab hbc
  rcases hab with h1 | ⟨h1, h1'⟩ <;> rcases hbc with h2 | ⟨h2, h2'⟩
  · exact Or.inl (h2.trans h1)
  · exact Or.inl (h2 ▸ h1)
  · exact Or.inl (h1 ▸ h2)
  · exact Or.inr ⟨h2.trans h1, h2'.trans h1'⟩

instance [LinearOrder α] : IsAntisymm (α × String) pairGe := by
  constructor
  intro a b hab hba
  rcases hab with h1 | ⟨h1, h1'⟩ <;> rcases hba with h2 | ⟨h2, h2'⟩
  · exact absurd (h1.trans h2) (lt_irrefl _)
  · exact absurd h1 (h2 ▸ lt_irrefl _)
  · exact absurd h2 (h1 ▸ lt_irrefl _)
  · exact Prod.ext h1.symm (le_antisymm h2' h1')

/-- Model of `l.sort(reverse=True)` on `(score, name)` tuples. -/
def sortDesc [LinearOrder α] (l : List (α × String)) : List (α × String) :=
  List.insertionSort pairGe l

/-- Embedding of `top_matches(prefs, person, n, similarity)`. -/
def top_matches [LinearOrder α] (prefs : Prefs) (person : String) (n : ℕ)
    (similarity : Prefs → String → String → α) : List (α × String) :=
  let sim_list := ((keys prefs).filter (fun other => other ≠ person)).map
    (fun other => (similarity prefs person other, other))
  (sortDesc sim_list).take n

/-- Python dict assignment `d[i] = v`: overwrite in place, else append. -/
def setInner (d : Ratings) (i : String) (v : ℚ) : Ratings :=
  match d with
  | [] => [(i, v)]
  | (k, w) :: rest => if k = i then (k, v) :: rest else (k, w) :: setInner rest i v

/-- One step of `transform_prefs`: `transformed.setdefault(j, {}); transformed[j][i] = v`. -/
def addEntry (acc : Prefs) (j i : String) (v : ℚ) : Prefs :=
  match acc with
  | [] => [(j, setInner [] i v)]
  | (k, d) :: rest =>
    if k = j then (k, setInner d i v) :: rest else (k, d) :: addEntry rest j i v

/-- Embedding of `transform_prefs(prefs)`: transpose entity and counterpart dimensions. -/
def transform_prefs (prefs : Prefs) : Prefs :=
  prefs.foldl (fun acc p => p.2.foldl (fun acc2 q => addEntry acc2 q.1 p.1 q.2) acc) []

/-- Python `d.setdefault(k, 0); d[k] += x`. -/
def addTo (acc : List (String × ℚ)) (key : String) (x : ℚ) : List (String × ℚ) :=
  match acc with
  | [] => [(key, x)]
  | (k, v) :: rest => if k = key then (k, v + x) :: rest else (k, v) :: addTo rest key x

/-- The pair of accumulators `(rating_by_sim_total, sim_score_total)`. -/
abbrev AccPair := (List (String × ℚ)) × (List (String × ℚ))

/-- The item filter of `user_based_recommend`:
`item not in prefs[person] or prefs[person][item] == 0`. -/
def unratedByDirect (prefs : Prefs) (person item : String) : Prop :=
  alookup (getRatings prefs person) item = none ∨
    alookup (getRatings prefs person) item = some 0

instance (prefs : Prefs) (person item : String) :
    Decidable (unratedByDirect prefs person item) := by
  unfold unratedByDirect; infer_instance

/-- The accumulation loop of `user_based_recommend`. -/
def user_based_accum (prefs : Prefs) (person : String)
    (similarity : Prefs → String → String → ℚ) : AccPair :=
  (keys prefs).foldl (fun acc other =>
    if other = person then acc
    else if similarity prefs person other ≤ 0 then acc
    else (getRatings prefs other).foldl (fun acc2 ir =>
      if unratedByDirect prefs person ir.1 then
        (addTo acc2.1 ir.1 (ir.2 * similarity prefs person other),
         addTo acc2.2 ir.1 (similarity prefs person other))
      else acc2) acc) ([], [])

/-- Final ranking construction shared by all three recommenders:
`[(total / sim_score_total[item], item) for item, total in …]`, sorted. -/
def rankingsOf (acc : AccPair) : List (ℚ × String) :=
  sortDesc (acc.1.map (fun p => ((p.2 / (alookup acc.2 p.1).getD 0), p.1)))

/-- Embedding of `user_based_recommend(prefs, person, similarity)`. -/
def user_based_recommend (prefs : Prefs) (person : String)
    (similarity : Prefs → String → String → ℚ) : List (ℚ × String) :=
  rankingsOf (user_based_accum prefs person similarity)

/-- A precomputed neighborhood store: entity id to neighbor list. -/
abbrev Store := List (String × List (ℚ × String))

/-- Embedding of `sim_user_base(prefs, n)`: top-n `sim_distance` neighbors of every user. -/
def sim_user_base (prefs : Prefs) (n : ℕ) : Store :=
  (keys prefs).map (fun user => (user, top_matches prefs user n sim_distance))

/-- The accumulation loop of `user_based_recommend_efficient`. -/
def user_eff_accum (prefs : Prefs) (base : Store) (user : String) : AccPair :=
  ((alookup base user).getD []).foldl (fun acc su =>
    (getRatings prefs su.2).foldl (fun acc2 ir =>
      if (alookup (getRatings prefs user) ir.1).isSome then acc2
      else (addTo acc2.1 ir.1 (ir.2 * su.1), addTo acc2.2 ir.1 su.1)) acc) ([], [])

/-- Embedding of `user_based_recommend_efficient(prefs, sim_user_base, user)`. -/
def user_based_recommend_efficient (prefs : Prefs) (base : Store)
    (user : String) : List (ℚ × String) :=
  rankingsOf (user_eff_accum prefs base user)

/-- Embedding of `sim_item_base(prefs, n)`: top-n `sim_distance` neighbors of every item
of the transposed matrix. -/
def sim_item_base (prefs : Prefs) (n : ℕ) : Store :=
  (keys (transform_prefs prefs)).map
    (fun item => (item, top_matches (transform_prefs prefs) item n sim_distance))

/-- The accumulation loop of `item_based_recommend`. -/
def item_based_accum (prefs : Prefs) (base : Store) (user : String) : AccPair :=
  (getRatings prefs user).foldl (fun acc ir =>
    ((alookup base ir.1).getD []).foldl (fun acc2 si =>
      if (alookup (getRatings prefs user) si.2).isSome then acc2
      else (addTo acc2.1 si.2 (ir.2 * si.1), addTo acc2.2 si.2 si.1)) acc) ([], [])

/-- Embedding of `item_based_recommend(prefs, sim_item_base, user)`. -/
def item_based_recommend (prefs : Prefs) (base : Store)
    (user : String) : List (ℚ × String) :=
  rankingsOf (item_based_accum prefs base user)

example : sim_distance [("A", [("x", 1), ("y", 2)]), ("B", [("x", 1), ("y", 2)])] "A" "B" = 1 := by
  simp [sim_distance, shared, keys, getRatings, rateOf, alookup]

example : sim_distance [("A", [("x", 1), ("y", 2)]), ("C", [("x", 5), ("y", 1)])] "A" "C"
    = 1 / 18 := by
  simp [sim_distance, shared, keys, getRatings, rateOf, alookup]
  norm_num

example : sim_tanimoto [("A", [("x", 1), ("y", 2)]), ("C", [("x", 5), ("z", 1)])] "A" "C"
    = 1 / 3 := by
  simp [sim_tanimoto, shared, keys, getRatings, alookup]
  norm_num

example : top_matches [("A", [("x", 1)]), ("B", [("x", 1)]), ("C", [("x", 3)])] "A" 5
    sim_distance = [(1, "B"), (1 / 5, "C")] := by
  norm_num [top_matches, sortDesc, List.insertionSort, List.orderedInsert, pairGe,
    sim_distance, shared, keys, getRatings, rateOf, alookup]

example : transform_prefs [("A", [("x", 1), ("y", 2)]), ("B", [("x", 3)])]
    = [("x", [("A", 1), ("B", 3)]), ("y", [("A", 2)])] := by
  simp [transform_prefs, addEntry, setInner]

example : user_based_recommend [("A", [("x", 1)]), ("B", [("x", 1), ("y", 5)])] "A"
    sim_distance = [(5, "y")] := by
  norm_num [user_based_recommend, user_based_accum, rankingsOf, sortDesc,
    List.insertionSort, List.orderedInsert, pairGe, unratedByDirect, addTo,
    sim_distance, shared, keys, getRatings, rateOf, alookup, Option.some_ne_none]

/-! ## Association-list lemmas -/

theorem alookup_isSome_iff_mem_keys (l : List (String × β)) (k : String) :
    (alookup l k).isSome ↔ k ∈ keys l := by
  induction l with
  | nil => simp [alookup, keys]
  | cons p rest ih =>
    obtain ⟨k', v⟩ := p
    by_cases h : k' = k <;> simp [alookup, keys, h, ih]
    exact fun hk => (h hk.symm).elim

theorem alookup_eq_none_iff_not_mem_keys (l : List (String × β)) (k : String) :
    alookup l k = none ↔ k ∉ keys l := by
  rw [← alookup_isSome_iff_mem_keys, Option.not_isSome_iff_eq_none]

theorem alookup_mem (l : List (String × β)) (k : String) (v : β)
    (h : alookup l k = some v) : (k, v) ∈ l := by
  induction l with
  | nil => simp [alookup] at h
  | cons p rest ih =>
    obtain ⟨k', v'⟩ := p
    by_cases hk : k' = k
    · subst hk
      simp [alookup] at h
      simp [h]
    · simp [alookup, hk] at h
      simp [ih h]

theorem mem_alookup (l : List (String × β)) (k : String) (v : β)
    (hnd : (keys l).Nodup) (h : (k, v) ∈ l) : alookup l k = some v := by
  induction l with
  | nil => simp at h
  | cons p rest ih =>
    obtain ⟨k', v'⟩ := p
    rw [keys, List.map_cons, List.nodup_cons] at hnd
    rcases List.mem_cons.mp h with h1 | h1
    · injection h1 with ha hb
      subst ha
      subst hb
      simp [alookup]
    · have hkk : k' ≠ k := by
        intro he
        subst he
        exact hnd.1 (List.mem_map.mpr ⟨(k', v), h1, rfl⟩)
      simp only [alookup]
      rw [if_neg hkk]
      exact ih hnd.2 h1

theorem alookup_map_entry (l : List (String × β)) (g : String → β → γ) (k : String) :
    alookup (l.map (fun p => (p.1, g p.1 p.2))) k = (alookup l k).map (g k) := by
  induction l with
  | nil => simp [alookup]
  | cons p rest ih =>
    by_cases h : p.1 = k
    · subst h; simp [alookup, ih]
    · simp [alookup, h, ih]

/-! ## `addTo` accumulator lemmas -/

theorem alookup_addTo (acc : List (String × ℚ)) (k : String) (x : ℚ) (k' : String) :
    alookup (addTo acc k x) k' =
      if k' = k then some ((alookup acc k).getD 0 + x) else alookup acc k' := by
  induction acc with
  | nil =>
    by_cases h : k' = k
    · subst h
      simp [addTo, alookup]
    · have h2 : k ≠ k' := fun he => h he.symm
      simp [addTo, alookup, h, h2]
  | cons p rest ih =>
    obtain ⟨k0, v0⟩ := p
    by_cases h0 : k0 = k
    · subst h0
      by_cases h : k' = k0
      · subst h
        simp [addTo, alookup]
      · have h2 : k0 ≠ k' := fun he => h he.symm
        simp [addTo, alookup, h, h2]
    · have h0' : k ≠ k0 := fun he => h0 he.symm
      by_cases h : k' = k0
      · subst h
        simp [addTo, alookup, h0, h0']
      · have h3 : k0 ≠ k' := fun he => h he.symm
        simp [addTo, alookup, h0, h0', h, h3, ih]

theorem keys_addTo (acc : List (String × ℚ)) (k : String) (x : ℚ) :
    keys (addTo acc k x) = if k ∈ keys acc then keys acc else keys acc ++ [k] := by
  induction acc with
  | nil => simp [addTo, keys]
  | cons p rest ih =>
    obtain ⟨k0, v0⟩ := p
    by_cases h0 : k0 = k
    · subst h0
      simp [addTo, keys]
    · have h0' : ¬ k = k0 := fun he => h0 he.symm
      by_cases hm : k ∈ keys rest
      · simp only [keys] at hm ih ⊢
        simp [addTo, h0, h0', hm, ih]
      · simp only [keys] at hm ih ⊢
        simp [addTo, h0, h0', hm, ih]

theorem nodup_keys_addTo (acc : List (String × ℚ)) (k : String) (x : ℚ)
    (h : (keys acc).Nodup) : (keys (addTo acc k x)).Nodup := by
  rw [keys_addTo]
  by_cases hm : k ∈ keys acc
  · simp [hm, h]
  · simp only [hm, if_false]
    rw [List.nodup_append]
    exact ⟨h, List.nodup_singleton k, by simp [hm]⟩

/-! ## Contribution lists: a normal form for the accumulation loops -/

/-- One contribution: (item, value added to `rating_by_sim_total`,
value added to `sim_score_total`). -/
abbrev Contrib := String × ℚ × ℚ

/-- One accumulation step over both dictionaries. -/
def stepC (acc : AccPair) (c : Contrib) : AccPair :=
  (addTo acc.1 c.1 c.2.1, addTo acc.2 c.1 c.2.2)

/-- Total added to `rating_by_sim_total[k]` by a contribution list. -/
def totW (cs : List Contrib) (k : String) : ℚ :=
  ((cs.filter (fun c => c.1 == k)).map (fun c => c.2.1)).sum

/-- Total added to `sim_score_total[k]` by a contribution list. -/
def totS (cs : List Contrib) (k : String) : ℚ :=
  ((cs.filter (fun c => c.1 == k)).map (fun c => c.2.2)).sum

theorem foldl_stepC_fst_getD (cs : List Contrib) (acc : AccPair) (k : String) :
    (alookup (cs.foldl stepC acc).1 k).getD 0 = (alookup acc.1 k).getD 0 + totW cs k := by
  induction cs generalizing acc with
  | nil => simp [totW]
  | cons c cs ih =>
    rw [List.foldl_cons, ih]
    by_cases h : c.1 = k
    · simp [stepC, alookup_addTo, totW, h]
      ring
    · have : ¬ (c.1 == k) = true := by simpa using h
      have hk : k ≠ c.1 := fun he => h he.symm
      simp [stepC, alookup_addTo, totW, hk, this]

theorem foldl_stepC_snd_getD (cs : List Contrib) (acc : AccPair) (k : String) :
    (alookup (cs.foldl stepC acc).2 k).getD 0 = (alookup acc.2 k).getD 0 + totS cs k := by
  induction cs generalizing acc with
  | nil => simp [totS]
  | cons c cs ih =>
    rw [List.foldl_cons, ih]
    by_cases h : c.1 = k
    · simp [stepC, alookup_addTo, totS, h]
      ring
    · have : ¬ (c.1 == k) = true := by simpa using h
      have hk : k ≠ c.1 := fun he => h he.symm
      simp [stepC, alookup_addTo, totS, hk, this]

theorem foldl_stepC_fst_isSome (cs : List Contrib) (acc : AccPair) (k : String) :
    (alookup (cs.foldl stepC acc).1 k).isSome
      = ((alookup acc.1 k).isSome || cs.any (fun c => c.1 == k)) := by
  induction cs generalizing acc with
  | nil => simp
  | cons c cs ih =>
    rw [List.foldl_cons, ih]
    by_cases h : c.1 = k
    · subst h
      simp [stepC, alookup_addTo]
    · have hk : k ≠ c.1 := fun he => h he.symm
      have : ¬ (c.1 == k) = true := by simpa using h
      simp [stepC, alookup_addTo, hk, this]

theorem foldl_stepC_snd_isSome (cs : List Contrib) (acc : AccPair) (k : String) :
    (alookup (cs.foldl stepC acc).2 k).isSome
      = ((alookup acc.2 k).isSome || cs.any (fun c => c.1 == k)) := by
  induction cs generalizing acc with
  | nil => simp
  | cons c cs ih =>
    rw [List.foldl_cons, ih]
    by_cases h : c.1 = k
    · subst h
      simp [stepC, alookup_addTo]
    · have hk : k ≠ c.1 := fun he => h he.symm
      have : ¬ (c.1 == k) = true := by simpa using h
      simp [stepC, alookup_addTo, hk, this]

theorem foldl_stepC_fst_nodup (cs : List Contrib) (acc : AccPair)
    (h : (keys acc.1).Nodup) : (keys (cs.foldl stepC acc).1).Nodup := by
  induction cs generalizing acc with
  | nil => exact h
  | cons c cs ih =>
    rw [List.foldl_cons]
    exact ih _ (nodup_keys_addTo _ _ _ h)

/-! ## Fold conversion helpers -/

theorem foldl_flatMap_step (l : List α) (g : α → List Contrib) (acc : AccPair) :
    (l.flatMap g).foldl stepC acc = l.foldl (fun a x => (g x).foldl stepC a) acc := by
  induction l generalizing acc with
  | nil => simp
  | cons x l ih => simp [List.flatMap_cons, List.foldl_append, ih]

theorem foldl_filterMap_step (l : List α) (g : α → Option Contrib) (acc : AccPair) :
    (l.filterMap g).foldl stepC acc
      = l.foldl (fun a x => match g x with | some c => stepC a c | none => a) acc := by
  induction l generalizing acc with
  | nil => simp
  | cons x l ih =>
    rcases hx : g x with _ | c <;> simp [List.filterMap_cons, hx, ih]

theorem flatMap_if_filter (l : List α) (p : α → Prop) [DecidablePred p]
    (g : α → List Contrib) :
    (l.flatMap (fun x => if p x then g x else [])) = (l.filter (fun x => decide (p x))).flatMap g := by
  induction l with
  | nil => simp
  | cons x l ih =>
    by_cases hx : p x <;> simp [List.flatMap_cons, List.filter_cons, hx, ih]

theorem flatMap_congr_mem (l : List α) (f g : α → List Contrib)
    (h : ∀ a ∈ l, f a = g a) : l.flatMap f = l.flatMap g := by
  induction l with
  | nil => simp
  | cons x l ih =>
    simp only [List.flatMap_cons]
    rw [h x (List.mem_cons_self x l), ih (fun a ha => h a (List.mem_cons_of_mem x ha))]

/-! ## Contribution lists of the three recommenders -/

/-- Contributions of the `user_based_recommend` loop, in loop order. -/
def directContribs (prefs : Prefs) (person : String)
    (similarity : Prefs → String → String → ℚ) : List Contrib :=
  (keys prefs).flatMap (fun other =>
    if other = person then []
    else if similarity prefs person other ≤ 0 then []
    else (getRatings prefs other).filterMap (fun ir =>
      if unratedByDirect prefs person ir.1 then
        some (ir.1, ir.2 * similarity prefs person other, similarity prefs person other)
      else none))

/-- Contributions of the `user_based_recommend_efficient` loop, in loop order. -/
def effContribs (prefs : Prefs) (base : Store) (user : String) : List Contrib :=
  ((alookup base user).getD []).flatMap (fun su =>
    (getRatings prefs su.2).filterMap (fun ir =>
      if (alookup (getRatings prefs user) ir.1).isSome then none
      else some (ir.1, ir.2 * su.1, su.1)))

/-- Contributions of the `item_based_recommend` loop, in loop order. -/
def itemContribs (prefs : Prefs) (base : Store) (user : String) : List Contrib :=
  (getRatings prefs user).flatMap (fun ir =>
    ((alookup base ir.1).getD []).filterMap (fun si =>
      if (alookup (getRatings prefs user) si.2).isSome then none
      else some (si.2, ir.2 * si.1, si.1)))

theorem user_based_accum_eq (prefs : Prefs) (person : String)
    (similarity : Prefs → String → String → ℚ) :
    user_based_accum prefs person similarity
      = (directContribs prefs person similarity).foldl stepC ([], []) := by
  unfold user_based_accum directContribs
  rw [foldl_flatMap_step]
  apply List.foldl_ext
  intro acc other _
  by_cases h1 : other = person
  · simp [h1]
  · by_cases h2 : similarity prefs person other ≤ 0
    · simp [h1, h2]
    · simp only [h1, h2, if_false]
      rw [foldl_filterMap_step]
      apply List.foldl_ext
      intro acc2 ir _
      by_cases h3 : unratedByDirect prefs person ir.1
      · simp [h3, stepC]
      · simp [h3]

theorem user_eff_accum_eq (prefs : Prefs) (base : Store) (user : String) :
    user_eff_accum prefs base user = (effContribs prefs base user).foldl stepC ([], []) := by
  unfold user_eff_accum effContribs
  rw [foldl_flatMap_step]
  apply List.foldl_ext
  intro acc su _
  rw [foldl_filterMap_step]
  apply List.foldl_ext
  intro acc2 ir _
  by_cases h : (alookup (getRatings prefs user) ir.1).isSome
  · simp [h]
  · simp [h, stepC]

theorem item_based_accum_eq (prefs : Prefs) (base : Store) (user : String) :
    item_based_accum prefs base user = (itemContribs prefs base user).foldl stepC ([], []) := by
  unfold item_based_accum itemContribs
  rw [foldl_flatMap_step]
  apply List.foldl_ext
  intro acc ir _
  rw [foldl_filterMap_step]
  apply List.foldl_ext
  intro acc2 si _
  by_cases h : (alookup (getRatings prefs user) si.2).isSome
  · simp [h]
  · simp [h, stepC]

/-! ## Sorting lemmas -/

theorem sortDesc_sorted [LinearOrder α] (l : List (α × String)) :
    (sortDesc l).Sorted pairGe :=
  List.sorted_insertionSort pairGe l

theorem sortDesc_perm [LinearOrder α] (l : List (α × String)) :
    List.Perm (sortDesc l) l :=
  List.perm_insertionSort pairGe l

theorem sortDesc_eq_of_perm [LinearOrder α] (l₁ l₂ : List (α × String))
    (h : List.Perm l₁ l₂) : sortDesc l₁ = sortDesc l₂ :=
  List.eq_of_perm_of_sorted ((sortDesc_perm l₁).trans (h.trans (sortDesc_perm l₂).symm))
    (sortDesc_sorted l₁) (sortDesc_sorted l₂)

/-! ## Rankings characterization -/

theorem rankings_entries (l d : List (String × ℚ)) (hnd : (keys l).Nodup) :
    l.map (fun p => (p.2 / (alookup d p.1).getD 0, p.1))
      = (keys l).map (fun k => ((alookup l k).getD 0 / (alookup d k).getD 0, k)) := by
  induction l with
  | nil => rfl
  | cons p rest ih =>
    rw [keys, List.map_cons, List.nodup_cons] at hnd
    simp only [keys, List.map_cons]
    congr 1
    · simp [alookup]
    · rw [ih hnd.2]
      apply List.map_congr_left
      intro k hk
      have : p.1 ≠ k := by
        intro he
        exact hnd.1 (he ▸ hk)
      simp [alookup, this]

theorem rankingsOf_foldl (cs : List Contrib) :
    rankingsOf (cs.foldl stepC ([], [])) =
      sortDesc ((keys (cs.foldl stepC ([], [])).1).map
        (fun k => (totW cs k / totS cs k, k))) := by
  unfold rankingsOf
  congr 1
  rw [rankings_entries _ _ (foldl_stepC_fst_nodup cs ([], []) (by simp [keys]))]
  apply List.map_congr_left
  intro k _
  have h1 := foldl_stepC_fst_getD cs ([], []) k
  have h2 := foldl_stepC_snd_getD cs ([], []) k
  simp only [alookup, Option.getD_none, zero_add] at h1 h2
  rw [h1, h2]

theorem mem_keys_foldl_stepC (cs : List Contrib) (k : String) :
    k ∈ keys (cs.foldl stepC ([], [])).1 ↔ k ∈ cs.map (fun c => c.1) := by
  rw [← alookup_isSome_iff_mem_keys]
  have := foldl_stepC_fst_isSome cs ([], []) k
  rw [this]
  simp [alookup, List.any_eq_true, List.mem_map]

theorem rankings_ext (cs₁ cs₂ : List Contrib)
    (hW : ∀ k, totW cs₁ k = totW cs₂ k)
    (hS : ∀ k, totS cs₁ k = totS cs₂ k)
    (hK : ∀ k, k ∈ cs₁.map (fun c => c.1) ↔ k ∈ cs₂.map (fun c => c.1)) :
    rankingsOf (cs₁.foldl stepC ([], [])) = rankingsOf (cs₂.foldl stepC ([], [])) := by
  rw [rankingsOf_foldl, rankingsOf_foldl]
  have hnd₁ := foldl_stepC_fst_nodup cs₁ ([], []) (by simp [keys])
  have hnd₂ := foldl_stepC_fst_nodup cs₂ ([], []) (by simp [keys])
  have hperm : List.Perm (keys (cs₁.foldl stepC ([], [])).1)
      (keys (cs₂.foldl stepC ([], [])).1) := by
    rw [List.perm_ext_iff_of_nodup hnd₁ hnd₂]
    intro k
    rw [mem_keys_foldl_stepC, mem_keys_foldl_stepC]
    exact hK k
  have hfun : (fun k => (totW cs₁ k / totS cs₁ k, k))
      = (fun k => (totW cs₂ k / totS cs₂ k, k)) := by
    funext k
    rw [hW, hS]
  rw [hfun]
  exact sortDesc_eq_of_perm _ _ (hperm.map _)

theorem rankings_perm_contribs (cs₁ cs₂ : List Contrib) (h : List.Perm cs₁ cs₂) :
    rankingsOf (cs₁.foldl stepC ([], [])) = rankingsOf (cs₂.foldl stepC ([], [])) := by
  apply rankings_ext
  · intro k
    exact ((h.filter _).map _).sum_eq
  · intro k
    exact ((h.filter _).map _).sum_eq
  · intro k
    exact (h.map _).mem_iff

theorem mem_rankingsOf (cs : List Contrib) (item : String) :
    item ∈ (rankingsOf (cs.foldl stepC ([], []))).map Prod.snd
      ↔ item ∈ cs.map (fun c => c.1) := by
  rw [rankingsOf_foldl]
  rw [List.Perm.mem_iff ((sortDesc_perm _).map Prod.snd)]
  rw [List.map_map]
  simp only [Function.comp_def, List.map_id_fun', id]
  exact mem_keys_foldl_stepC cs item

/-! ## Membership facts about contribution lists -/

theorem mem_directContribs (prefs : Prefs) (person : String)
    (f : Prefs → String → String → ℚ) (c : Contrib)
    (hc : c ∈ directContribs prefs person f) :
    unratedByDirect prefs person c.1 ∧ 0 < c.2.2 := by
  unfold directContribs at hc
  rw [List.mem_flatMap] at hc
  obtain ⟨other, _, hc⟩ := hc
  by_cases h1 : other = person
  · simp [h1] at hc
  · by_cases h2 : f prefs person other ≤ 0
    · simp [h1, h2] at hc
    · simp only [h1, h2, if_false] at hc
      rw [List.mem_filterMap] at hc
      obtain ⟨ir, _, hir⟩ := hc
      by_cases h3 : unratedByDirect prefs person ir.1
      · rw [if_pos h3] at hir
        obtain rfl := Option.some_injective _ hir
        exact ⟨h3, lt_of_not_le h2⟩
      · rw [if_neg h3] at hir
        exact absurd hir (Option.noConfusion)

theorem mem_effContribs (prefs : Prefs) (base : Store) (user : String) (c : Contrib)
    (hc : c ∈ effContribs prefs base user) :
    alookup (getRatings prefs user) c.1 = none
      ∧ ∃ su ∈ (alookup base user).getD [], c.2.2 = su.1 := by
  unfold effContribs at hc
  rw [List.mem_flatMap] at hc
  obtain ⟨su, hsu, hc⟩ := hc
  rw [List.mem_filterMap] at hc
  obtain ⟨ir, _, hir⟩ := hc
  by_cases h : (alookup (getRatings prefs user) ir.1).isSome
  · rw [if_pos h] at hir
    exact absurd hir (Option.noConfusion)
  · rw [if_neg h] at hir
    obtain rfl := Option.some_injective _ hir
    exact ⟨Option.not_isSome_iff_eq_none.mp h, su, hsu, rfl⟩

theorem mem_itemContribs (prefs : Prefs) (base : Store) (user : String) (c : Contrib)
    (hc : c ∈ itemContribs prefs base user) :
    alookup (getRatings prefs user) c.1 = none
      ∧ ∃ ir ∈ getRatings prefs user, ∃ si ∈ (alookup base ir.1).getD [], c.2.2 = si.1 := by
  unfold itemContribs at hc
  rw [List.mem_flatMap] at hc
  obtain ⟨ir, hir, hc⟩ := hc
  rw [List.mem_filterMap] at hc
  obtain ⟨si, hsi, hq⟩ := hc
  by_cases h : (alookup (getRatings prefs user) si.2).isSome
  · rw [if_pos h] at hq
    exact absurd hq (Option.noConfusion)
  · rw [if_neg h] at hq
    obtain rfl := Option.some_injective _ hq
    exact ⟨Option.not_isSome_iff_eq_none.mp h, ir, hir, si, hsi, rfl⟩

/-! ## Claim C7: direct recommendation and already-rated items -/

/-- C7: for every matrix, entity and similarity function, the direct
recommendation list `user_based_recommend` never contains an item the entity
has already rated with a nonzero value; and (second conjunct) an item whose
stored rating is exactly 0 is treated as unrated and can be recommended. -/
theorem C7_direct_excludes_nonzero_rated :
    (∀ (prefs : Prefs) (person : String) (f : Prefs → String → String → ℚ)
        (item : String) (r : ℚ),
      alookup (getRatings prefs person) item = some r → r ≠ 0 →
      item ∉ (user_based_recommend prefs person f).map Prod.snd)
    ∧ "x" ∈ (user_based_recommend [("A", [("x", 0)]), ("B", [("x", 4)])] "A"
        sim_distance).map Prod.snd := by
  constructor
  · intro prefs person f item r hr hr0 hmem
    unfold user_based_recommend at hmem
    rw [user_based_accum_eq] at hmem
    rw [mem_rankingsOf] at hmem
    rw [List.mem_map] at hmem
    obtain ⟨c, hc, hceq⟩ := hmem
    have := (mem_directContribs prefs person f c hc).1
    rw [hceq] at this
    rcases this with h | h
    · rw [hr] at h
      exact Option.noConfusion h
    · rw [hr] at h
      exact hr0 (Option.some_injective _ h)
  · norm_num [user_based_recommend, user_based_accum, rankingsOf, sortDesc,
      List.insertionSort, List.orderedInsert, pairGe, unratedByDirect, addTo,
      sim_distance, shared, keys, getRatings, rateOf, alookup, Option.some_ne_none]

/-- Witness for C7 at a concrete input: entity `A` rated `y` with the nonzero
value 3, so `y` is never recommended to `A`. -/
theorem C7_witness :
    "y" ∉ (user_based_recommend [("A", [("y", 3)]), ("B", [("y", 1), ("z", 2)])] "A"
        sim_distance).map Prod.snd :=
  C7_direct_excludes_nonzero_rated.1 _ "A" sim_distance "y" 3
    (by simp [getRatings, alookup]) (by norm_num)

/-! ## Claim C8: cached recommenders treat any present key as rated -/

/-- C8: for every matrix, store and user, the cached-mode recommenders never
return an item that is a key of the user's rating map, even when its stored
rating is 0 (the key-presence test `item in prefs[user]` ignores the value). -/
theorem C8_cached_excludes_rated_keys :
    ∀ (prefs : Prefs) (base : Store) (user : String) (item : String),
      item ∈ keys (getRatings prefs user) →
      item ∉ (user_based_recommend_efficient prefs base user).map Prod.snd
      ∧ item ∉ (item_based_recommend prefs base user).map Prod.snd := by
  intro prefs base user item hitem
  have hsome : (alookup (getRatings prefs user) item).isSome :=
    (alookup_isSome_iff_mem_keys _ _).mpr hitem
  constructor
  · intro hmem
    unfold user_based_recommend_efficient at hmem
    rw [user_eff_accum_eq, mem_rankingsOf, List.mem_map] at hmem
    obtain ⟨c, hc, hceq⟩ := hmem
    have := (mem_effContribs prefs base user c hc).1
    rw [hceq] at this
    rw [this] at hsome
    exact Bool.noConfusion hsome
  · intro hmem
    unfold item_based_recommend at hmem
    rw [item_based_accum_eq, mem_rankingsOf, List.mem_map] at hmem
    obtain ⟨c, hc, hceq⟩ := hmem
    have := (mem_itemContribs prefs base user c hc).1
    rw [hceq] at this
    rw [this] at hsome
    exact Bool.noConfusion hsome

/-- Witness for C8 at a concrete input: `x` is a key of `A`'s rating map with
stored rating 0, and neither cached recommender returns it. -/
theorem C8_witness :
    "x" ∉ (user_based_recommend_efficient [("A", [("x", 0)]), ("B", [("x", 4)])]
        [("A", [(1, "B")])] "A").map Prod.snd
    ∧ "x" ∉ (item_based_recommend [("A", [("x", 0)]), ("B", [("x", 4)])]
        [("x", [(1, "x")])] "A").map Prod.snd :=
  C8_cached_excludes_rated_keys _ _ "A" "x" (by simp [keys, getRatings, alookup])

/-! ## Claim C2: positivity of the similarity totals -/

theorem totS_pos_of_contribs (cs : List Contrib) (item : String)
    (hpos : ∀ c ∈ cs, c.1 = item → 0 < c.2.2)
    (hmem : item ∈ cs.map (fun c => c.1)) : 0 < totS cs item := by
  unfold totS
  apply List.sum_pos
  · intro x hx
    rw [List.mem_map] at hx
    obtain ⟨c, hc, hceq⟩ := hx
    rw [List.mem_filter] at hc
    subst hceq
    exact hpos c hc.1 (by simpa using hc.2)
  · rw [List.mem_map] at hmem
    obtain ⟨c, hc, hceq⟩ := hmem
    intro hnil
    have : c.2.2 ∈ (cs.filter (fun c => c.1 == item)).map (fun c => c.2.2) :=
      List.mem_map.mpr ⟨c, List.mem_filter.mpr ⟨hc, by simpa using hceq⟩, rfl⟩
    rw [hnil] at this
    simp at this

theorem snd_getD_eq_totS (cs : List Contrib) (item : String) :
    (alookup (cs.foldl stepC ([], [])).2 item).getD 0 = totS cs item := by
  have := foldl_stepC_snd_getD cs ([], []) item
  simpa [alookup] using this

/-- C2 (amended): in direct mode every item key of the weighted-sum
accumulator has a positive similarity total, because only strictly positive
similarities contribute; in the cached modes the same holds provided every
similarity score in the relevant neighbor lists of the store is positive. -/
theorem C2_weight_sum_positive :
    (∀ (prefs : Prefs) (person : String) (f : Prefs → String → String → ℚ)
        (item : String),
      item ∈ keys (user_based_accum prefs person f).1 →
      0 < (alookup (user_based_accum prefs person f).2 item).getD 0)
    ∧ (∀ (prefs : Prefs) (base : Store) (user : String) (item : String),
      (∀ su ∈ (alookup base user).getD [], 0 < su.1) →
      item ∈ keys (user_eff_accum prefs base user).1 →
      0 < (alookup (user_eff_accum prefs base user).2 item).getD 0)
    ∧ (∀ (prefs : Prefs) (base : Store) (user : String) (item : String),
      (∀ ir ∈ getRatings prefs user, ∀ si ∈ (alookup base ir.1).getD [], 0 < si.1) →
      item ∈ keys (item_based_accum prefs base user).1 →
      0 < (alookup (item_based_accum prefs base user).2 item).getD 0) := by
  refine ⟨?_, ?_, ?_⟩
  · intro prefs person f item hmem
    rw [user_based_accum_eq] at hmem ⊢
    rw [mem_keys_foldl_stepC] at hmem
    rw [snd_getD_eq_totS]
    exact totS_pos_of_contribs _ _
      (fun c hc _ => (mem_directContribs prefs person f c hc).2) hmem
  · intro prefs base user item hstore hmem
    rw [user_eff_accum_eq] at hmem ⊢
    rw [mem_keys_foldl_stepC] at hmem
    rw [snd_getD_eq_totS]
    apply totS_pos_of_contribs _ _ ?_ hmem
    intro c hc _
    obtain ⟨-, su, hsu, hceq⟩ := mem_effContribs prefs base user c hc
    rw [hceq]
    exact hstore su hsu
  · intro prefs base user item hstore hmem
    rw [item_based_accum_eq] at hmem ⊢
    rw [mem_keys_foldl_stepC] at hmem
    rw [snd_getD_eq_totS]
    apply totS_pos_of_contribs _ _ ?_ hmem
    intro c hc _
    obtain ⟨-, ir, hir, si, hsi, hceq⟩ := mem_itemContribs prefs base user c hc
    rw [hceq]
    exact hstore ir hir si hsi

/-- Counterexample to C2 as stated: with an arbitrary neighborhood store the
cached accumulators can give an item key a similarity total of exactly 0 (a
store entry with similarity score 0, as `top_matches` with `sim_distance`
produces for disjoint users), so the claim fails for cached mode. -/
theorem C2_counterexample :
    "y" ∈ keys (user_eff_accum [("A", []), ("B", [("y", 3)])]
        [("A", [(0, "B")])] "A").1
    ∧ (alookup (user_eff_accum [("A", []), ("B", [("y", 3)])]
        [("A", [(0, "B")])] "A").2 "y").getD 0 = 0 := by
  constructor
  · simp [user_eff_accum, getRatings, alookup, keys, addTo]
  · simp [user_eff_accum, getRatings, alookup, keys, addTo]

/-- Witness for C2 at concrete inputs: in direct mode the item `y` gets a
positive similarity total; likewise in both cached modes with positive store
scores. -/
theorem C2_witness :
    (0 < (alookup (user_based_accum [("A", [("x", 1)]), ("B", [("x", 1), ("y", 5)])]
        "A" sim_distance).2 "y").getD 0)
    ∧ (0 < (alookup (user_eff_accum [("A", [("x", 1)]), ("B", [("x", 1), ("y", 5)])]
        [("A", [(1, "B")])] "A").2 "y").getD 0)
    ∧ (0 < (alookup (item_based_accum [("A", [("x", 1)]), ("B", [("x", 1), ("y", 5)])]
        [("x", [(1, "y")])] "A").2 "y").getD 0) := by
  refine ⟨?_, ?_, ?_⟩
  · exact C2_weight_sum_positive.1 _ "A" sim_distance "y"
      (by simp [user_based_accum, getRatings, alookup, keys, addTo,
        unratedByDirect, sim_distance, shared, rateOf, Option.some_ne_none]
          norm_num)
  · exact C2_weight_sum_positive.2.1 _ _ "A" "y"
      (by simp [alookup])
      (by simp [user_eff_accum, getRatings, alookup, keys, addTo,
        Option.some_ne_none])
  · exact C2_weight_sum_positive.2.2 _ _ "A" "y"
      (by simp [getRatings, alookup])
      (by simp [item_based_accum, getRatings, alookup, keys, addTo,
        Option.some_ne_none])

/-! ## Claim C5: `top_matches` contract -/

theorem filter_ne_length (l : List String) (a : String) (h : l.Nodup) (ha : a ∈ l) :
    (l.filter (fun x => x ≠ a)).length = l.length - 1 := by
  induction l with
  | nil => simp at ha
  | cons x rest ih =>
    rw [List.nodup_cons] at h
    by_cases hx : x = a
    · subst hx
      rw [List.filter_cons_of_neg (by simp)]
      rw [List.filter_eq_self.mpr ?_]
      · simp
      · intro b hb
        simp only [ne_eq, decide_eq_true_eq]
        intro he
        exact h.1 (he ▸ hb)
    · rw [List.filter_cons_of_pos (by simp [hx])]
      have ha' : a ∈ rest := by
        rcases List.mem_cons.mp ha with h1 | h1
        · exact absurd h1.symm hx
        · exact h1
      rw [List.length_cons, ih h.2 ha', List.length_cons]
      have : 1 ≤ rest.length := List.length_pos.mpr (List.ne_nil_of_mem ha')
      omega

/-- C5: `top_matches(m, e, n, f)` returns at most `n` pairs, sorted
descending (scores weakly descending, ties broken by descending id), never
contains `e` itself, and when the matrix has fewer than `n+1` entities it
returns exactly all the other entities' pairs — fewer than `n` — without
error. -/
theorem C5_top_matches_spec [LinearOrder α] (prefs : Prefs) (person : String) (n : ℕ)
    (f : Prefs → String → String → α)
    (hnd : (keys prefs).Nodup) (hmem : person ∈ keys prefs) :
    (top_matches prefs person n f).length ≤ n
    ∧ (top_matches prefs person n f).Sorted pairGe
    ∧ ((top_matches prefs person n f).map Prod.fst).Sorted (fun a b => b ≤ a)
    ∧ person ∉ (top_matches prefs person n f).map Prod.snd
    ∧ ((keys prefs).length < n + 1 →
        (top_matches prefs person n f).length
          = ((keys prefs).filter (fun other => other ≠ person)).length
        ∧ (top_matches prefs person n f).length < n) := by
  have hsorted : (top_matches prefs person n f).Sorted pairGe := by
    unfold top_matches
    exact (sortDesc_sorted _).sublist (List.take_sublist _ _)
  refine ⟨?_, hsorted, ?_, ?_, ?_⟩
  · exact List.length_take_le n _
  · unfold List.Sorted at hsorted ⊢
    refine List.Pairwise.map Prod.fst ?_ hsorted
    intro a b hab
    rcases hab with h | ⟨h, _⟩
    · exact le_of_lt h
    · exact le_of_eq h
  · intro hcon
    rw [List.mem_map] at hcon
    obtain ⟨pr, hpr, hsnd⟩ := hcon
    have hpr2 : pr ∈ sortDesc (((keys prefs).filter (fun other => other ≠ person)).map
        (fun other => (f prefs person other, other))) :=
      (List.take_sublist _ _).subset hpr
    have hpr3 := (sortDesc_perm _).subset hpr2
    rw [List.mem_map] at hpr3
    obtain ⟨other, hother, hpair⟩ := hpr3
    rw [List.mem_filter] at hother
    have : other = person := by
      rw [← hpair] at hsnd
      exact hsnd
    rw [this] at hother
    simpa using hother.2
  · intro hlen
    have hlen' : (keys prefs).length ≤ n := by omega
    have hfl : ((keys prefs).filter (fun other => other ≠ person)).length
        = (keys prefs).length - 1 := filter_ne_length _ _ hnd hmem
    have hpos : 1 ≤ (keys prefs).length := List.length_pos.mpr (List.ne_nil_of_mem hmem)
    have hslen : (sortDesc (((keys prefs).filter (fun other => other ≠ person)).map
        (fun other => (f prefs person other, other)))).length
        = (keys prefs).length - 1 := by
      rw [(sortDesc_perm _).length_eq, List.length_map, hfl]
    constructor
    · unfold top_matches
      rw [List.length_take, hslen, hfl]
      omega
    · unfold top_matches
      rw [List.length_take, hslen]
      omega

/-- Witness for C5 at a concrete input. -/
theorem C5_witness :
    (top_matches [("A", [("x", 1)]), ("B", [("x", 1)]), ("C", [("x", 3)])] "A" 5
        sim_distance).length ≤ 5
    ∧ (top_matches [("A", [("x", 1)]), ("B", [("x", 1)]), ("C", [("x", 3)])] "A" 5
        sim_distance).Sorted pairGe
    ∧ ((top_matches [("A", [("x", 1)]), ("B", [("x", 1)]), ("C", [("x", 3)])] "A" 5
        sim_distance).map Prod.fst).Sorted (fun a b => b ≤ a)
    ∧ "A" ∉ (top_matches [("A", [("x", 1)]), ("B", [("x", 1)]), ("C", [("x", 3)])] "A" 5
        sim_distance).map Prod.snd
    ∧ ((keys [("A", [("x", (1:ℚ))]), ("B", [("x", 1)]), ("C", [("x", 3)])]).length < 5 + 1 →
        (top_matches [("A", [("x", 1)]), ("B", [("x", 1)]), ("C", [("x", 3)])] "A" 5
          sim_distance).length
          = ((keys [("A", [("x", (1:ℚ))]), ("B", [("x", 1)]), ("C", [("x", 3)])]).filter
              (fun other => other ≠ "A")).length
        ∧ (top_matches [("A", [("x", 1)]), ("B", [("x", 1)]), ("C", [("x", 3)])] "A" 5
            sim_distance).length < 5) :=
  C5_top_matches_spec _ "A" 5 sim_distance (by simp [keys]) (by simp [keys])

/-! ## Claim C9: `top_matches` is independent of matrix iteration order -/

/-- C9: the output of `top_matches` is fully determined by the matrix
contents: ties are broken by the descending pair order (descending
counterpart id), so for any two matrices that are permutations of each other
(same entries, different iteration order) and a similarity function taking
equal values on both, the two result lists are identical; moreover the
result is sorted by the descending `(score, id)` order. -/
theorem C9_top_matches_order_independent [LinearOrder α] (prefs prefs' : Prefs)
    (person : String) (n : ℕ) (f : Prefs → String → String → α)
    (hperm : List.Perm prefs prefs')
    (hf : ∀ other, f prefs person other = f prefs' person other) :
    top_matches prefs person n f = top_matches prefs' person n f
    ∧ (top_matches prefs person n f).Sorted pairGe := by
  constructor
  · unfold top_matches
    have hkeys : List.Perm (keys prefs) (keys prefs') := hperm.map Prod.fst
    have hothers := hkeys.filter (fun other => decide (other ≠ person))
    have hmap1 : (((keys prefs).filter (fun o => o ≠ person)).map
          (fun o => (f prefs person o, o)))
        = (((keys prefs).filter (fun o => o ≠ person)).map
          (fun o => (f prefs' person o, o))) :=
      List.map_congr_left (fun o _ => by rw [hf])
    rw [hmap1]
    exact congrArg (List.take n)
      (sortDesc_eq_of_perm _ _ (hothers.map (fun o => (f prefs' person o, o))))
  · exact (sortDesc_sorted _).sublist (List.take_sublist _ _)

/-- Witness for C9 at a concrete input: the same two-user matrix in its two
iteration orders yields identical `top_matches` output. -/
theorem C9_witness :
    top_matches [("A", [("x", 1)]), ("B", [("x", 2)])] "A" 5 sim_distance
      = top_matches [("B", [("x", 2)]), ("A", [("x", 1)])] "A" 5 sim_distance
    ∧ (top_matches [("A", [("x", 1)]), ("B", [("x", 2)])] "A" 5
        sim_distance).Sorted pairGe :=
  C9_top_matches_order_independent _ _ "A" 5 sim_distance
    (List.Perm.swap _ _ _)
    (fun other => by
      by_cases h1 : other = "A"
      · subst h1
        simp [sim_distance, shared, getRatings, rateOf, alookup, keys]
      · by_cases h2 : other = "B"
        · subst h2
          simp [sim_distance, shared, getRatings, rateOf, alookup, keys]
        · simp [sim_distance, shared, getRatings, rateOf, alookup, keys,
            Ne.symm h1, Ne.symm h2])

/-! ## Claim C1: cached vs direct recommendation -/

theorem flatMap_map_gen (l : List α) (h : α → γ) (g : γ → List Contrib) :
    (l.map h).flatMap g = l.flatMap (fun x => g (h x)) := by
  induction l with
  | nil => rfl
  | cons x xs ih => simp only [List.map_cons, List.flatMap_cons, ih]

theorem flatMap_skip_person (l : List String) (person : String)
    (g : String → List Contrib) :
    (l.flatMap (fun x => if x = person then [] else g x))
      = (l.filter (fun x => x ≠ person)).flatMap g := by
  induction l with
  | nil => rfl
  | cons x xs ih =>
    by_cases hx : x = person
    · simp [List.flatMap_cons, List.filter_cons, hx, ih]
    · simp [List.flatMap_cons, List.filter_cons, hx, ih]

/-- C1 (amended): the cached and the direct recommender agree on `person`
whenever the store's neighbor list for `person` is the full `top_matches`
ranking over all other entities (`n` at least their number), every similarity
to another entity is strictly positive, and `person` has no rating stored as
exactly 0.  (As stated, with an arbitrary `n`, the claim is false: see the
counterexample.) -/
theorem C1_cached_eq_direct (prefs : Prefs) (base : Store) (person : String)
    (n : ℕ) (f : Prefs → String → String → ℚ)
    (hn : ((keys prefs).filter (fun o => o ≠ person)).length ≤ n)
    (hstore : alookup base person = some (top_matches prefs person n f))
    (hpos : ∀ o ∈ (keys prefs).filter (fun o => o ≠ person), 0 < f prefs person o)
    (hzero : ∀ item, alookup (getRatings prefs person) item ≠ some 0) :
    user_based_recommend_efficient prefs base person
      = user_based_recommend prefs person f := by
  unfold user_based_recommend_efficient user_based_recommend
  rw [user_eff_accum_eq, user_based_accum_eq]
  apply rankings_perm_contribs
  have htm : top_matches prefs person n f
      = sortDesc (((keys prefs).filter (fun o => o ≠ person)).map
          (fun o => (f prefs person o, o))) := by
    unfold top_matches
    apply List.take_of_length_le
    rw [(sortDesc_perm _).length_eq, List.length_map]
    exact hn
  have h1 : effContribs prefs base person
      = (sortDesc (((keys prefs).filter (fun o => o ≠ person)).map
          (fun o => (f prefs person o, o)))).flatMap
        (fun su => (getRatings prefs su.2).filterMap (fun ir =>
          if (alookup (getRatings prefs person) ir.1).isSome then none
          else some (ir.1, ir.2 * su.1, su.1))) := by
    unfold effContribs
    rw [hstore, htm]
    rfl
  rw [h1]
  have h2 : directContribs prefs person f
      = ((keys prefs).filter (fun o => o ≠ person)).flatMap (fun o =>
          (getRatings prefs o).filterMap (fun ir =>
            if (alookup (getRatings prefs person) ir.1).isSome then none
            else some (ir.1, ir.2 * f prefs person o, f prefs person o))) := by
    unfold directContribs
    rw [flatMap_skip_person]
    apply flatMap_congr_mem
    intro o ho
    have hp := hpos o ho
    rw [if_neg (not_le.mpr hp)]
    apply List.filterMap_congr
    intro ir _
    by_cases hs : (alookup (getRatings prefs person) ir.1).isSome
    · rw [if_neg ?_, if_pos hs]
      intro hun
      rcases hun with hnone | hzero0
      · rw [hnone] at hs
        exact Bool.noConfusion hs
      · exact hzero ir.1 hzero0
    · rw [if_pos (show unratedByDirect prefs person ir.1 from
        Or.inl (Option.not_isSome_iff_eq_none.mp hs)), if_neg hs]
  rw [h2]
  have h3 := (sortDesc_perm (((keys prefs).filter (fun o => o ≠ person)).map
      (fun o => (f prefs person o, o)))).flatMap_right
      (fun su : ℚ × String => (getRatings prefs su.2).filterMap (fun ir =>
        if (alookup (getRatings prefs person) ir.1).isSome then none
        else some (ir.1, ir.2 * su.1, su.1)))
  refine h3.trans ?_
  rw [flatMap_map_gen]

/-- Counterexample to C1 as stated: with `N = 1` the store's neighbor list
for `A` equals `top_matches` with the same `N`, yet the cached score for `y`
(5, from the single cached neighbor) differs from the direct score
(13/3, averaging both other users). -/
theorem C1_counterexample :
    alookup [("A", [((1 : ℚ), "B")])] "A"
      = some (top_matches [("A", [("x", 1)]), ("B", [("x", 1), ("y", 5)]),
          ("C", [("x", 3), ("y", 1)])] "A" 1 sim_distance)
    ∧ user_based_recommend_efficient
        [("A", [("x", 1)]), ("B", [("x", 1), ("y", 5)]), ("C", [("x", 3), ("y", 1)])]
        [("A", [((1 : ℚ), "B")])] "A"
      ≠ user_based_recommend
        [("A", [("x", 1)]), ("B", [("x", 1), ("y", 5)]), ("C", [("x", 3), ("y", 1)])]
        "A" sim_distance := by
  have htm : top_matches [("A", [("x", 1)]), ("B", [("x", 1), ("y", 5)]),
      ("C", [("x", 3), ("y", 1)])] "A" 1 sim_distance = [((1 : ℚ), "B")] := by
    norm_num [top_matches, sortDesc, List.insertionSort, List.orderedInsert, pairGe,
      sim_distance, shared, keys, getRatings, rateOf, alookup]
  have heff : user_based_recommend_efficient
      [("A", [("x", 1)]), ("B", [("x", 1), ("y", 5)]), ("C", [("x", 3), ("y", 1)])]
      [("A", [((1 : ℚ), "B")])] "A" = [((5 : ℚ), "y")] := by
    norm_num [user_based_recommend_efficient, user_eff_accum, rankingsOf, sortDesc,
      List.insertionSort, List.orderedInsert, pairGe, addTo,
      keys, getRatings, rateOf, alookup, Option.some_ne_none]
  have hdir : user_based_recommend
      [("A", [("x", 1)]), ("B", [("x", 1), ("y", 5)]), ("C", [("x", 3), ("y", 1)])]
      "A" sim_distance = [((13 / 3 : ℚ), "y")] := by
    norm_num [user_based_recommend, user_based_accum, rankingsOf, sortDesc,
      List.insertionSort, List.orderedInsert, pairGe, unratedByDirect, addTo,
      sim_distance, shared, keys, getRatings, rateOf, alookup, Option.some_ne_none]
  refine ⟨?_, ?_⟩
  · rw [htm]
    simp [alookup]
  · rw [heff, hdir]
    intro hcon
    have := List.head_eq_of_cons_eq hcon
    rw [Prod.ext_iff] at this
    norm_num at this

/-- Witness for the amended C1 at a concrete input where the store holds the
full ranking, all similarities are positive and no rating is 0. -/
theorem C1_witness :
    user_based_recommend_efficient [("A", [("x", 1)]), ("B", [("x", 1), ("y", 5)])]
      [("A", top_matches [("A", [("x", 1)]), ("B", [("x", 1), ("y", 5)])] "A" 1
        sim_distance)] "A"
    = user_based_recommend [("A", [("x", 1)]), ("B", [("x", 1), ("y", 5)])] "A"
        sim_distance :=
  C1_cached_eq_direct _ _ "A" 1 sim_distance
    (by simp [keys])
    (by simp [alookup])
    (by
      intro o ho
      simp [keys] at ho
      subst ho
      norm_num [sim_distance, shared, keys, getRatings, rateOf, alookup])
    (by
      intro item
      by_cases h : item = "x"
      · subst h
        simp [getRatings, alookup]
      · simp [getRatings, alookup, Ne.symm h])

/-! ## Transposition machinery -/

/-- Model of `transformed[j][i]`, the double lookup. -/
def alookup2 (m : Prefs) (i j : String) : Option ℚ :=
  alookup (getRatings m i) j

theorem alookup_setInner (d : Ratings) (i : String) (v : ℚ) (i' : String) :
    alookup (setInner d i v) i' = if i' = i then some v else alookup d i' := by
  induction d with
  | nil =>
    by_cases h : i' = i
    · subst h
      simp [setInner, alookup]
    · have h2 : i ≠ i' := fun he => h he.symm
      simp [setInner, alookup, h, h2]
  | cons p rest ih =>
    obtain ⟨k0, v0⟩ := p
    by_cases h0 : k0 = i
    · subst h0
      by_cases h : i' = k0
      · subst h
        simp [setInner, alookup]
      · have h2 : k0 ≠ i' := fun he => h he.symm
        simp [setInner, alookup, h, h2]
    · have h0' : i ≠ k0 := fun he => h0 he.symm
      by_cases h : i' = k0
      · subst h
        simp [setInner, alookup, h0, h0']
      · have h3 : k0 ≠ i' := fun he => h he.symm
        simp [setInner, alookup, h0, h0', h, h3, ih]

theorem setInner_ne_nil (d : Ratings) (i : String) (v : ℚ) : setInner d i v ≠ [] := by
  cases d with
  | nil => simp [setInner]
  | cons p rest =>
    obtain ⟨k0, v0⟩ := p
    by_cases h : k0 = i <;> simp [setInner, h]

theorem keys_setInner (d : Ratings) (i : String) (v : ℚ) :
    keys (setInner d i v) = if i ∈ keys d then keys d else keys d ++ [i] := by
  induction d with
  | nil => simp [setInner, keys]
  | cons p rest ih =>
    obtain ⟨k0, v0⟩ := p
    by_cases h0 : k0 = i
    · subst h0
      simp [setInner, keys]
    · have h0' : ¬ i = k0 := fun he => h0 he.symm
      by_cases hm : i ∈ keys rest
      · simp only [keys] at hm ih ⊢
        simp [setInner, h0, h0', hm, ih]
      · simp only [keys] at hm ih ⊢
        simp [setInner, h0, h0', hm, ih]

theorem nodup_keys_setInner (d : Ratings) (i : String) (v : ℚ)
    (h : (keys d).Nodup) : (keys (setInner d i v)).Nodup := by
  rw [keys_setInner]
  by_cases hm : i ∈ keys d
  · simp [hm, h]
  · simp only [hm, if_false]
    rw [List.nodup_append]
    exact ⟨h, List.nodup_singleton i, by simp [hm]⟩

theorem alookup_addEntry (acc : Prefs) (j i : String) (v : ℚ) (j' : String) :
    alookup (addEntry acc j i v) j'
      = if j' = j then some (setInner ((alookup acc j).getD []) i v)
        else alookup acc j' := by
  induction acc with
  | nil =>
    by_cases h : j' = j
    · subst h
      simp [addEntry, alookup]
    · have h2 : j ≠ j' := fun he => h he.symm
      simp [addEntry, alookup, h, h2]
  | cons p rest ih =>
    obtain ⟨k0, d0⟩ := p
    by_cases h0 : k0 = j
    · subst h0
      by_cases h : j' = k0
      · subst h
        simp [addEntry, alookup]
      · have h2 : k0 ≠ j' := fun he => h he.symm
        simp [addEntry, alookup, h, h2]
    · have h0' : j ≠ k0 := fun he => h0 he.symm
      by_cases h : j' = k0
      · subst h
        simp [addEntry, alookup, h0, h0']
      · have h3 : k0 ≠ j' := fun he => h he.symm
        simp [addEntry, alookup, h0, h0', h, h3, ih]

theorem alookup2_addEntry (acc : Prefs) (j i : String) (v : ℚ) (j' i' : String) :
    alookup2 (addEntry acc j i v) j' i'
      = if j' = j ∧ i' = i then some v else alookup2 acc j' i' := by
  unfold alookup2 getRatings
  rw [alookup_addEntry]
  by_cases hj : j' = j
  · rw [if_pos hj]
    simp only [Option.getD_some]
    rw [alookup_setInner]
    by_cases hi : i' = i
    · rw [if_pos hi, if_pos ⟨hj, hi⟩]
    · rw [if_neg hi, if_neg (fun hc => hi hc.2), hj]
  · rw [if_neg hj, if_neg (fun hc => hj hc.1)]

theorem keys_addEntry (acc : Prefs) (j i : String) (v : ℚ) :
    keys (addEntry acc j i v) = if j ∈ keys acc then keys acc else keys acc ++ [j] := by
  induction acc with
  | nil => simp [addEntry, keys]
  | cons p rest ih =>
    obtain ⟨k0, d0⟩ := p
    by_cases h0 : k0 = j
    · subst h0
      simp [addEntry, keys]
    · have h0' : ¬ j = k0 := fun he => h0 he.symm
      by_cases hm : j ∈ keys rest
      · simp only [keys] at hm ih ⊢
        simp [addEntry, h0, h0', hm, ih]
      · simp only [keys] at hm ih ⊢
        simp [addEntry, h0, h0', hm, ih]

theorem mem_keys_addEntry (acc : Prefs) (j i : String) (v : ℚ) (k : String) :
    k ∈ keys (addEntry acc j i v) ↔ k ∈ keys acc ∨ k = j := by
  rw [keys_addEntry]
  by_cases hm : j ∈ keys acc
  · rw [if_pos hm]
    constructor
    · exact Or.inl
    · rintro (h | rfl)
      · exact h
      · exact hm
  · rw [if_neg hm]
    simp

theorem nodup_keys_addEntry (acc : Prefs) (j i : String) (v : ℚ)
    (h : (keys acc).Nodup) : (keys (addEntry acc j i v)).Nodup := by
  rw [keys_addEntry]
  by_cases hm : j ∈ keys acc
  · simp [hm, h]
  · simp only [hm, if_false]
    rw [List.nodup_append]
    exact ⟨h, List.nodup_singleton j, by simp [hm]⟩

theorem mem_addEntry_inner (acc : Prefs) (j i : String) (v : ℚ) (p : String × Ratings)
    (hp : p ∈ addEntry acc j i v) :
    p ∈ acc ∨ ∃ d, p.2 = setInner d i v := by
  induction acc with
  | nil =>
    simp [addEntry] at hp
    exact Or.inr ⟨[], by rw [hp]⟩
  | cons q rest ih =>
    obtain ⟨k0, d0⟩ := q
    by_cases h0 : k0 = j
    · subst h0
      simp only [addEntry, if_pos rfl] at hp
      rcases List.mem_cons.mp hp with h | h
      · exact Or.inr ⟨d0, by rw [h]⟩
      · exact Or.inl (List.mem_cons_of_mem _ h)
    · simp only [addEntry, if_neg h0] at hp
      rcases List.mem_cons.mp hp with h | h
      · exact Or.inl (h ▸ List.mem_cons_self _ _)
      · rcases ih h with h1 | h1
        · exact Or.inl (List.mem_cons_of_mem _ h1)
        · exact Or.inr h1

/-- The stream of `(entity, counterpart, value)` writes of `transform_prefs`,
in loop order. -/
def entriesOf (m : Prefs) : List (String × String × ℚ) :=
  m.flatMap (fun p => p.2.map (fun q => (p.1, q.1, q.2)))

theorem foldl_flatMap_gen (l : List α) (g : α → List γ) (step : σ → γ → σ) (a : σ) :
    (l.flatMap g).foldl step a = l.foldl (fun acc x => (g x).foldl step acc) a := by
  induction l generalizing a with
  | nil => rfl
  | cons x xs ih => simp [List.flatMap_cons, List.foldl_append, ih]

theorem transform_prefs_eq_foldl (m : Prefs) :
    transform_prefs m
      = (entriesOf m).foldl (fun acc e => addEntry acc e.2.1 e.1 e.2.2) [] := by
  unfold transform_prefs entriesOf
  rw [foldl_flatMap_gen]
  apply List.foldl_ext
  intro acc p _
  rw [List.foldl_map]

/-- Every inner dictionary anywhere in the accumulator stays non-empty under
the `transform_prefs` write loop. -/
theorem foldl_addEntry_inner_ne_nil (es : List (String × String × ℚ)) (acc : Prefs)
    (h : ∀ p ∈ acc, p.2 ≠ []) :
    ∀ p ∈ es.foldl (fun a e => addEntry a e.2.1 e.1 e.2.2) acc, p.2 ≠ [] := by
  induction es generalizing acc with
  | nil => exact h
  | cons e es ih =>
    rw [List.foldl_cons]
    apply ih
    intro p hp
    rcases mem_addEntry_inner _ _ _ _ _ hp with h1 | ⟨d, hd⟩
    · exact h p h1
    · rw [hd]
      exact setInner_ne_nil d e.1 e.2.2

/-- C10: every inner map of `transform_prefs`'s output is non-empty — both
every stored entry and every successful lookup — even when the input
contains entities with empty rating maps. -/
theorem C10_transform_inner_nonempty :
    ∀ (m : Prefs), (∀ p ∈ transform_prefs m, p.2 ≠ [])
      ∧ ∀ (j : String) (d : Ratings), alookup (transform_prefs m) j = some d → d ≠ [] := by
  intro m
  have h1 : ∀ p ∈ transform_prefs m, p.2 ≠ [] := by
    rw [transform_prefs_eq_foldl]
    exact foldl_addEntry_inner_ne_nil _ [] (by simp)
  refine ⟨h1, ?_⟩
  intro j d hd
  exact h1 (j, d) (alookup_mem _ _ _ hd)

/-- Witness for C10 at a concrete input: the input contains an entity with an
empty rating map, and the transposed matrix's single inner map is non-empty. -/
theorem C10_witness :
    ([("A", (1 : ℚ))] : Ratings) ≠ [] :=
  (C10_transform_inner_nonempty [("Empty", []), ("A", [("x", 1)])]).2 "x" [("A", 1)]
    (by simp [transform_prefs, addEntry, setInner, alookup])

/-- First match among the write stream for the pair `(entity i, counterpart j)`. -/
def findEntry (es : List (String × String × ℚ)) (i j : String) :
    Option (String × String × ℚ) :=
  es.find? (fun e => e.1 == i && e.2.1 == j)

theorem alookup2_foldl_addEntry (es : List (String × String × ℚ)) (acc : Prefs)
    (j' i' : String) (hnd : (es.map (fun e => (e.1, e.2.1))).Nodup) :
    alookup2 (es.foldl (fun a e => addEntry a e.2.1 e.1 e.2.2) acc) j' i'
      = match findEntry es i' j' with
        | some e => some e.2.2
        | none => alookup2 acc j' i' := by
  induction es generalizing acc with
  | nil => rfl
  | cons e es ih =>
    rw [List.map_cons, List.nodup_cons] at hnd
    rw [List.foldl_cons, ih _ hnd.2]
    by_cases hp : e.1 = i' ∧ e.2.1 = j'
    · have hfind : findEntry es i' j' = none := by
        unfold findEntry
        rw [List.find?_eq_none]
        intro a ha hpa
        simp only [Bool.and_eq_true, beq_iff_eq] at hpa
        exact hnd.1 (List.mem_map.mpr ⟨a, ha, by
          rw [hpa.1, hpa.2, hp.1, hp.2]⟩)
      rw [hfind]
      have hfind2 : findEntry (e :: es) i' j' = some e := by
        unfold findEntry
        rw [List.find?_cons_of_pos]
        simp [hp.1, hp.2]
      rw [hfind2]
      rw [alookup2_addEntry, if_pos ⟨hp.2.symm, hp.1.symm⟩]
    · have hfind2 : findEntry (e :: es) i' j' = findEntry es i' j' := by
        unfold findEntry
        rw [List.find?_cons_of_neg]
        simp only [Bool.and_eq_true, beq_iff_eq]
        exact hp
      rw [hfind2]
      rcases hfind : findEntry es i' j' with _ | e'
      · rw [alookup2_addEntry, if_neg ?_]
        intro hc
        exact hp ⟨hc.2.symm, hc.1.symm⟩
      · rfl

theorem alookup_eq_find? (d : Ratings) (j : String) :
    alookup d j = (d.find? (fun q => q.1 == j)).map Prod.snd := by
  induction d with
  | nil => rfl
  | cons q rest ih =>
    obtain ⟨k0, v0⟩ := q
    by_cases h : k0 = j
    · subst h
      rw [List.find?_cons_of_pos _ (by simp)]
      simp [alookup]
    · rw [List.find?_cons_of_neg _ (by simp [h])]
      simp only [alookup, if_neg h]
      exact ih

theorem mem_entriesOf_fst (m : Prefs) (e : String × String × ℚ)
    (he : e ∈ entriesOf m) : e.1 ∈ keys m := by
  unfold entriesOf at he
  rw [List.mem_flatMap] at he
  obtain ⟨p, hp, he⟩ := he
  rw [List.mem_map] at he
  obtain ⟨q, _, rfl⟩ := he
  exact List.mem_map.mpr ⟨p, hp, rfl⟩

theorem findEntry_entriesOf (m : Prefs) (i j : String) (hnd : (keys m).Nodup) :
    (findEntry (entriesOf m) i j).map (fun e => e.2.2) = alookup2 m i j := by
  induction m with
  | nil => rfl
  | cons p rest ih =>
    rw [keys, List.map_cons, List.nodup_cons] at hnd
    have hblock : entriesOf (p :: rest)
        = p.2.map (fun q => (p.1, q.1, q.2)) ++ entriesOf rest := by
      unfold entriesOf
      rw [List.flatMap_cons]
    rw [hblock]
    unfold findEntry
    rw [List.find?_append]
    by_cases hpi : p.1 = i
    · subst hpi
      have hcomp : ((fun e : String × String × ℚ => e.1 == p.1 && e.2.1 == j)
            ∘ fun q : String × ℚ => (p.1, q.1, q.2)) = (fun q : String × ℚ => q.1 == j) := by
        funext q
        simp [Function.comp]
      have hfm : (p.2.map (fun q => (p.1, q.1, q.2))).find?
            (fun e => e.1 == p.1 && e.2.1 == j)
          = (p.2.find? (fun q => q.1 == j)).map (fun q => (p.1, q.1, q.2)) := by
        rw [List.find?_map, hcomp]
      rw [hfm]
      have hrhs : alookup2 (p :: rest) p.1 j = alookup p.2 j := by
        unfold alookup2 getRatings
        simp [alookup]
      rw [hrhs, alookup_eq_find?]
      rcases hq : p.2.find? (fun q => q.1 == j) with _ | q
      · have hrest : (entriesOf rest).find? (fun e => e.1 == p.1 && e.2.1 == j) = none := by
          rw [List.find?_eq_none]
          intro a ha hpa
          simp only [Bool.and_eq_true, beq_iff_eq] at hpa
          exact hnd.1 (hpa.1 ▸ mem_entriesOf_fst rest a ha)
        simp [hq, hrest]
      · simp [hq]
    · have hfm : (p.2.map (fun q => (p.1, q.1, q.2))).find?
            (fun e => e.1 == i && e.2.1 == j) = none := by
        rw [List.find?_eq_none]
        intro a ha hpa
        rw [List.mem_map] at ha
        obtain ⟨q, _, rfl⟩ := ha
        simp only [Bool.and_eq_true, beq_iff_eq] at hpa
        exact hpi hpa.1
      rw [hfm]
      have hrhs : alookup2 (p :: rest) i j = alookup2 rest i j := by
        unfold alookup2 getRatings
        rcases p with ⟨k0, d0⟩
        simp only [alookup]
        rw [if_neg hpi]
      rw [hrhs, Option.none_or]
      exact ih hnd.2

theorem entries_pairs_nodup (m : Prefs) (hnd : (keys m).Nodup)
    (hinner : ∀ p ∈ m, (keys p.2).Nodup) :
    ((entriesOf m).map (fun e => (e.1, e.2.1))).Nodup := by
  induction m with
  | nil => simp [entriesOf]
  | cons p rest ih =>
    rw [keys, List.map_cons, List.nodup_cons] at hnd
    have hblock : entriesOf (p :: rest)
        = p.2.map (fun q => (p.1, q.1, q.2)) ++ entriesOf rest := by
      unfold entriesOf
      rw [List.flatMap_cons]
    rw [hblock, List.map_append, List.nodup_append]
    refine ⟨?_, ih hnd.2 (fun q hq => hinner q (List.mem_cons_of_mem _ hq)), ?_⟩
    · rw [List.map_map]
      have : ((fun e : String × String × ℚ => (e.1, e.2.1))
            ∘ fun q : String × ℚ => (p.1, q.1, q.2))
          = (fun q : String × ℚ => (p.1, q.1)) := by
        funext q
        rfl
      rw [this]
      have h2 : (p.2.map (fun q : String × ℚ => (p.1, q.1)))
          = (keys p.2).map (fun j => (p.1, j)) := by
        rw [keys, List.map_map]
        rfl
      rw [h2]
      apply List.Nodup.map ?_ (hinner p (List.mem_cons_self _ _))
      intro a b hab
      exact (Prod.ext_iff.mp hab).2
    · intro a ha hb
      rw [List.mem_map] at ha hb
      obtain ⟨e1, he1, rfl⟩ := ha
      obtain ⟨e2, he2, heq⟩ := hb
      rw [List.mem_map] at he1
      obtain ⟨q, hq, rfl⟩ := he1
      have h1 : e2.1 = p.1 := (Prod.ext_iff.mp heq).1
      exact hnd.1 (h1 ▸ mem_entriesOf_fst rest e2 he2)

/-- The transposition contract: `transform_prefs m [j][i] = m[i][j]`
for well-formed dictionaries. -/
theorem alookup2_transform (m : Prefs) (hnd : (keys m).Nodup)
    (hinner : ∀ p ∈ m, (keys p.2).Nodup) (i j : String) :
    alookup2 (transform_prefs m) j i = alookup2 m i j := by
  rw [transform_prefs_eq_foldl]
  rw [alookup2_foldl_addEntry _ _ _ _ (entries_pairs_nodup m hnd hinner)]
  have hE := findEntry_entriesOf m i j hnd
  rcases hfind : findEntry (entriesOf m) i j with _ | e
  · rw [hfind] at hE
    simp only [Option.map_none'] at hE
    rw [← hE]
    rfl
  · rw [hfind] at hE
    simp only [Option.map_some'] at hE
    rw [← hE]

theorem transform_keys_nodup (m : Prefs) : (keys (transform_prefs m)).Nodup := by
  rw [transform_prefs_eq_foldl]
  have h : ∀ (es : List (String × String × ℚ)) (acc : Prefs), (keys acc).Nodup →
      (keys (es.foldl (fun a e => addEntry a e.2.1 e.1 e.2.2) acc)).Nodup := by
    intro es
    induction es with
    | nil => exact fun acc h => h
    | cons e es ih =>
      intro acc hacc
      rw [List.foldl_cons]
      exact ih _ (nodup_keys_addEntry _ _ _ _ hacc)
  exact h _ [] (by simp [keys])

theorem inner_nodup_addEntry (acc : Prefs) (j i : String) (v : ℚ)
    (h : ∀ p ∈ acc, (keys p.2).Nodup) :
    ∀ p ∈ addEntry acc j i v, (keys p.2).Nodup := by
  induction acc with
  | nil =>
    intro p hp
    simp [addEntry] at hp
    rw [hp]
    simp [setInner, keys]
  | cons q rest ih =>
    obtain ⟨k0, d0⟩ := q
    by_cases h0 : k0 = j
    · subst h0
      simp only [addEntry, if_pos rfl]
      intro p hp
      rcases List.mem_cons.mp hp with h1 | h1
      · rw [h1]
        exact nodup_keys_setInner _ _ _ (h (k0, d0) (List.mem_cons_self _ _))
      · exact h p (List.mem_cons_of_mem _ h1)
    · simp only [addEntry, if_neg h0]
      intro p hp
      rcases List.mem_cons.mp hp with h1 | h1
      · rw [h1]
        exact h (k0, d0) (List.mem_cons_self _ _)
      · exact ih (fun p' hp' => h p' (List.mem_cons_of_mem _ hp')) p h1

theorem transform_inner_nodup (m : Prefs) :
    ∀ p ∈ transform_prefs m, (keys p.2).Nodup := by
  rw [transform_prefs_eq_foldl]
  have h : ∀ (es : List (String × String × ℚ)) (acc : Prefs),
      (∀ p ∈ acc, (keys p.2).Nodup) →
      ∀ p ∈ es.foldl (fun a e => addEntry a e.2.1 e.1 e.2.2) acc, (keys p.2).Nodup := by
    intro es
    induction es with
    | nil => exact fun acc h => h
    | cons e es ih =>
      intro acc hacc
      rw [List.foldl_cons]
      exact ih _ (inner_nodup_addEntry _ _ _ _ hacc)
  exact h _ [] (by simp)

theorem mem_keys_foldl_addEntry (es : List (String × String × ℚ)) (acc : Prefs)
    (k : String) :
    k ∈ keys (es.foldl (fun a e => addEntry a e.2.1 e.1 e.2.2) acc)
      ↔ k ∈ keys acc ∨ ∃ e ∈ es, e.2.1 = k := by
  induction es generalizing acc with
  | nil => simp
  | cons e es ih =>
    rw [List.foldl_cons, ih, mem_keys_addEntry]
    constructor
    · rintro ((h | h) | h)
      · exact Or.inl h
      · exact Or.inr ⟨e, List.mem_cons_self _ _, h.symm⟩
      · obtain ⟨e', he', hk⟩ := h
        exact Or.inr ⟨e', List.mem_cons_of_mem _ he', hk⟩
    · rintro (h | ⟨e', he', hk⟩)
      · exact Or.inl (Or.inl h)
      · rcases List.mem_cons.mp he' with h1 | h1
        · exact Or.inl (Or.inr (h1 ▸ hk.symm))
        · exact Or.inr ⟨e', h1, hk⟩

theorem mem_keys_transform (x : Prefs) (hnd : (keys x).Nodup) (k : String) :
    k ∈ keys (transform_prefs x) ↔ ∃ i, (alookup2 x i k).isSome := by
  rw [transform_prefs_eq_foldl, mem_keys_foldl_addEntry]
  simp only [keys, List.map_nil, List.not_mem_nil, false_or]
  constructor
  · rintro ⟨e, he, hk⟩
    unfold entriesOf at he
    rw [List.mem_flatMap] at he
    obtain ⟨p, hp, he⟩ := he
    rw [List.mem_map] at he
    obtain ⟨q, hq, rfl⟩ := he
    refine ⟨p.1, ?_⟩
    unfold alookup2 getRatings
    rw [mem_alookup x p.1 p.2 hnd (by cases p; exact hp)]
    simp only [Option.getD_some]
    rw [alookup_isSome_iff_mem_keys]
    exact hk ▸ List.mem_map.mpr ⟨q, hq, rfl⟩
  · rintro ⟨i, hi⟩
    unfold alookup2 getRatings at hi
    rcases hx : alookup x i with _ | d
    · rw [hx] at hi
      simp [alookup] at hi
    · rw [hx] at hi
      simp only [Option.getD_some] at hi
      rw [alookup_isSome_iff_mem_keys] at hi
      rw [keys, List.mem_map] at hi
      obtain ⟨q, hq, hk⟩ := hi
      refine ⟨(i, q.1, q.2), ?_, hk⟩
      unfold entriesOf
      rw [List.mem_flatMap]
      exact ⟨(i, d), alookup_mem _ _ _ hx, List.mem_map.mpr ⟨q, hq, rfl⟩⟩

/-- Python `==` on dictionaries of dictionaries: same outer key set, and the
same rating (or absence) at every double index. -/
def dictEquiv (m₁ m₂ : Prefs) : Prop :=
  (∀ e, (alookup m₁ e).isSome = (alookup m₂ e).isSome)
  ∧ ∀ e c, alookup2 m₁ e c = alookup2 m₂ e c

theorem exists_alookup2_isSome_iff (m : Prefs) (hne : ∀ p ∈ m, p.2 ≠ [])
    (e : String) : (∃ j, (alookup2 m e j).isSome) ↔ e ∈ keys m := by
  constructor
  · rintro ⟨j, hj⟩
    unfold alookup2 getRatings at hj
    rcases hx : alookup m e with _ | d
    · rw [hx] at hj
      simp [alookup] at hj
    · rw [← alookup_isSome_iff_mem_keys, hx]
      rfl
  · intro he
    rw [← alookup_isSome_iff_mem_keys] at he
    rcases hx : alookup m e with _ | d
    · rw [hx] at he
      exact Bool.noConfusion he
    · have hd : d ≠ [] := hne (e, d) (alookup_mem _ _ _ hx)
      rcases d with _ | ⟨q, rest⟩
      · exact absurd rfl hd
      · refine ⟨q.1, ?_⟩
        unfold alookup2 getRatings
        rw [hx]
        simp only [Option.getD_some]
        rcases q with ⟨k0, v0⟩
        simp [alookup]

/-- C6: the transposition contract and involution.  For every well-formed
matrix with no empty inner rating map, `transform_prefs m [j][i] = m[i][j]`
at every index pair, and applying `transform_prefs` twice reconstructs `m`
up to Python dictionary equality (same outer keys, same rating or absence
everywhere). -/
theorem C6_transform_involution (m : Prefs)
    (hnd : (keys m).Nodup) (hinner : ∀ p ∈ m, (keys p.2).Nodup)
    (hne : ∀ p ∈ m, p.2 ≠ []) :
    (∀ i j, alookup2 (transform_prefs m) j i = alookup2 m i j)
    ∧ dictEquiv (transform_prefs (transform_prefs m)) m := by
  have hT := alookup2_transform m hnd hinner
  have hT2 := alookup2_transform (transform_prefs m) (transform_keys_nodup m)
    (transform_inner_nodup m)
  refine ⟨hT, ?_, ?_⟩
  · intro e
    have h1 : (alookup (transform_prefs (transform_prefs m)) e).isSome
        ↔ e ∈ keys (transform_prefs (transform_prefs m)) :=
      alookup_isSome_iff_mem_keys _ _
    have h2 : e ∈ keys (transform_prefs (transform_prefs m))
        ↔ ∃ j, (alookup2 (transform_prefs m) j e).isSome :=
      mem_keys_transform _ (transform_keys_nodup m) e
    have h3 : (∃ j, (alookup2 (transform_prefs m) j e).isSome)
        ↔ ∃ j, (alookup2 m e j).isSome := by
      constructor
      · rintro ⟨j, hj⟩
        exact ⟨j, hT e j ▸ hj⟩
      · rintro ⟨j, hj⟩
        exact ⟨j, (hT e j).symm ▸ hj⟩
    have h4 : (∃ j, (alookup2 m e j).isSome) ↔ e ∈ keys m :=
      exists_alookup2_isSome_iff m hne e
    have hiff := h1.trans (h2.trans (h3.trans
      (h4.trans (alookup_isSome_iff_mem_keys m e).symm)))
    exact Bool.coe_iff_coe.mp hiff
  · intro e c
    rw [hT2 c e, hT e c]

/-- Witness for C6 at a concrete input. -/
theorem C6_witness :
    (∀ i j, alookup2 (transform_prefs [("A", [("x", 1), ("y", 2)]), ("B", [("x", 3)])]) j i
      = alookup2 [("A", [("x", 1), ("y", 2)]), ("B", [("x", 3)])] i j)
    ∧ dictEquiv
        (transform_prefs (transform_prefs [("A", [("x", 1), ("y", 2)]), ("B", [("x", 3)])]))
        [("A", [("x", 1), ("y", 2)]), ("B", [("x", 3)])] :=
  C6_transform_involution _ (by simp [keys])
    (by
      intro p hp
      rcases List.mem_cons.mp hp with h | h
      · rw [h]
        simp [keys]
      · rw [List.mem_singleton.mp h]
        simp [keys])
    (by
      intro p hp
      rcases List.mem_cons.mp hp with h | h
      · rw [h]
        simp
      · rw [List.mem_singleton.mp h]
        simp)

/-! ## Pearson arithmetic: centered sums and Cauchy-Schwarz -/

theorem centered_sum_eq (S : Finset String) (f g : String → ℚ)
    (hn : (S.card : ℚ) ≠ 0) :
    ∑ i in S, (f i - (∑ i in S, f i) / S.card) * (g i - (∑ i in S, g i) / S.card)
      = ∑ i in S, f i * g i - (∑ i in S, f i) * (∑ i in S, g i) / S.card := by
  have hexp : ∀ i ∈ S,
      (f i - (∑ i in S, f i) / S.card) * (g i - (∑ i in S, g i) / S.card)
        = f i * g i - ((∑ i in S, f i) / S.card) * g i
          - ((∑ i in S, g i) / S.card) * f i
          + ((∑ i in S, f i) / S.card) * ((∑ i in S, g i) / S.card) := by
    intro i _
    ring
  rw [Finset.sum_congr rfl hexp]
  rw [Finset.sum_add_distrib, Finset.sum_sub_distrib, Finset.sum_sub_distrib,
    ← Finset.mul_sum, ← Finset.mul_sum, Finset.sum_const, nsmul_eq_mul]
  field_simp
  ring

theorem centered_sq_eq (S : Finset String) (f : String → ℚ)
    (hn : (S.card : ℚ) ≠ 0) :
    ∑ i in S, (f i - (∑ i in S, f i) / S.card) ^ 2
      = ∑ i in S, f i ^ 2 - (∑ i in S, f i) ^ 2 / S.card := by
  have h := centered_sum_eq S f f hn
  calc ∑ i in S, (f i - (∑ i in S, f i) / S.card) ^ 2
      = ∑ i in S, (f i - (∑ i in S, f i) / S.card) * (f i - (∑ i in S, f i) / S.card) := by
        apply Finset.sum_congr rfl
        intro i _
        ring
    _ = ∑ i in S, f i * f i - (∑ i in S, f i) * (∑ i in S, f i) / S.card := h
    _ = ∑ i in S, f i ^ 2 - (∑ i in S, f i) ^ 2 / S.card := by
        rw [show ∑ i in S, f i * f i = ∑ i in S, f i ^ 2 from
          Finset.sum_congr rfl (fun i _ => (pow_two (f i)).symm)]
        ring

theorem centered_sq_nonneg (S : Finset String) (f : String → ℚ)
    (hn : (S.card : ℚ) ≠ 0) :
    0 ≤ ∑ i in S, f i ^ 2 - (∑ i in S, f i) ^ 2 / S.card := by
  rw [← centered_sq_eq S f hn]
  exact Finset.sum_nonneg (fun i _ => sq_nonneg _)

theorem pearson_cauchy_schwarz (S : Finset String) (f g : String → ℚ)
    (hn : (S.card : ℚ) ≠ 0) :
    (∑ i in S, f i * g i - (∑ i in S, f i) * (∑ i in S, g i) / S.card) ^ 2
      ≤ (∑ i in S, f i ^ 2 - (∑ i in S, f i) ^ 2 / S.card)
        * (∑ i in S, g i ^ 2 - (∑ i in S, g i) ^ 2 / S.card) := by
  rw [← centered_sum_eq S f g hn, ← centered_sq_eq S f hn, ← centered_sq_eq S g hn]
  exact Finset.sum_mul_sq_le_sq_mul_sq S _ _

theorem centered_sq_eq_zero_iff (S : Finset String) (f : String → ℚ)
    (hn : (S.card : ℚ) ≠ 0) :
    (∑ i in S, f i ^ 2 - (∑ i in S, f i) ^ 2 / S.card = 0)
      ↔ ∀ i ∈ S, f i = (∑ i in S, f i) / S.card := by
  rw [← centered_sq_eq S f hn]
  rw [Finset.sum_eq_zero_iff_of_nonneg (fun i _ => sq_nonneg _)]
  constructor
  · intro h i hi
    have := h i hi
    rw [pow_eq_zero_iff (by norm_num)] at this
    linarith [this]
  · intro h i hi
    rw [h i hi]
    ring

/-! ## Bridging the Pearson definitions to finite-set sums -/

theorem shared_nodup (prefs : Prefs) (p1 p2 : String)
    (h : (keys (getRatings prefs p1)).Nodup) : (shared prefs p1 p2).Nodup :=
  h.filter _

theorem shared_self (prefs : Prefs) (a : String) :
    shared prefs a a = keys (getRatings prefs a) := by
  unfold shared
  apply List.filter_eq_self.mpr
  intro item hitem
  exact (alookup_isSome_iff_mem_keys _ _).mpr hitem

theorem rateOf_mem (prefs : Prefs) (a : String) (q : String × ℚ)
    (hnd : (keys (getRatings prefs a)).Nodup) (hq : q ∈ getRatings prefs a) :
    rateOf prefs a q.1 = q.2 := by
  rcases q with ⟨k, v⟩
  unfold rateOf
  rw [mem_alookup _ _ _ hnd hq]
  rfl

theorem pearson_num_eq (prefs : Prefs) (p1 p2 : String)
    (hnd : (shared prefs p1 p2).Nodup) :
    pearson_num prefs p1 p2
      = ∑ i in (shared prefs p1 p2).toFinset, rateOf prefs p1 i * rateOf prefs p2 i
        - (∑ i in (shared prefs p1 p2).toFinset, rateOf prefs p1 i)
          * (∑ i in (shared prefs p1 p2).toFinset, rateOf prefs p2 i)
          / ((shared prefs p1 p2).toFinset.card : ℚ) := by
  simp only [pearson_num]
  rw [← List.sum_toFinset _ hnd, ← List.sum_toFinset _ hnd, ← List.sum_toFinset _ hnd,
    ← List.toFinset_card_of_nodup hnd]

theorem pearson_den_sq_eq (prefs : Prefs) (p1 p2 : String)
    (hnd : (shared prefs p1 p2).Nodup) :
    pearson_den_sq prefs p1 p2
      = (∑ i in (shared prefs p1 p2).toFinset, rateOf prefs p1 i ^ 2
          - (∑ i in (shared prefs p1 p2).toFinset, rateOf prefs p1 i) ^ 2
            / ((shared prefs p1 p2).toFinset.card : ℚ))
        * (∑ i in (shared prefs p1 p2).toFinset, rateOf prefs p2 i ^ 2
          - (∑ i in (shared prefs p1 p2).toFinset, rateOf prefs p2 i) ^ 2
            / ((shared prefs p1 p2).toFinset.card : ℚ)) := by
  simp only [pearson_den_sq]
  rw [← List.sum_toFinset _ hnd, ← List.sum_toFinset _ hnd, ← List.sum_toFinset _ hnd,
    ← List.sum_toFinset _ hnd, ← List.toFinset_card_of_nodup hnd]

/-- All ratings in a rating dictionary carry one single value. -/
def constRatings (d : Ratings) : Prop := ∀ q ∈ d, ∀ q' ∈ d, q.2 = q'.2

/-- C3 (amended): self-similarity.  `sim_distance(m,a,a) = 1` whenever `a`
has at least one rating; `sim_pearson(m,a,a) = 1` whenever additionally `a`'s
ratings are not all equal, but it is 0 — not 1 — when they are all equal
(the degenerate zero-denominator branch). -/
theorem C3_self_similarity (m : Prefs) (a : String)
    (hne : getRatings m a ≠ [])
    (hnd : (keys (getRatings m a)).Nodup) :
    sim_distance m a a = 1
    ∧ (¬ constRatings (getRatings m a) → sim_pearson m a a = 1)
    ∧ (constRatings (getRatings m a) → sim_pearson m a a = 0) := by
  have hsh : shared m a a = keys (getRatings m a) := shared_self m a
  have hlen : ¬ (shared m a a).length = 0 := by
    rw [hsh]
    unfold keys
    rw [List.length_map]
    exact fun hl => hne (List.length_eq_zero.mp hl)
  have hshnd : (shared m a a).Nodup := shared_nodup m a a hnd
  have hcard : (((shared m a a).toFinset.card : ℕ) : ℚ) ≠ 0 := by
    rw [List.toFinset_card_of_nodup hshnd]
    exact_mod_cast hlen
  have hnum : pearson_num m a a
      = ∑ i in (shared m a a).toFinset, rateOf m a i ^ 2
        - (∑ i in (shared m a a).toFinset, rateOf m a i) ^ 2
          / ((shared m a a).toFinset.card : ℚ) := by
    rw [pearson_num_eq m a a hshnd]
    rw [show (∑ i in (shared m a a).toFinset, rateOf m a i * rateOf m a i)
        = ∑ i in (shared m a a).toFinset, rateOf m a i ^ 2 from
      Finset.sum_congr rfl (fun i _ => (pow_two (rateOf m a i)).symm)]
    ring
  have hds : pearson_den_sq m a a = pearson_num m a a * pearson_num m a a := by
    rw [pearson_den_sq_eq m a a hshnd, hnum]
  have hA0 : 0 ≤ pearson_num m a a := by
    rw [hnum]
    exact centered_sq_nonneg _ _ hcard
  have hmemS : ∀ i, i ∈ (shared m a a).toFinset ↔ ∃ q ∈ getRatings m a, q.1 = i := by
    intro i
    rw [List.mem_toFinset, hsh]
    unfold keys
    exact List.mem_map
  refine ⟨?_, ?_, ?_⟩
  · simp only [sim_distance]
    rw [if_neg hlen]
    have hz : ((shared m a a).map
        (fun item => (rateOf m a item - rateOf m a item) ^ 2)).sum = 0 := by
      apply List.sum_eq_zero
      intro x hx
      rw [List.mem_map] at hx
      obtain ⟨i, _, rfl⟩ := hx
      ring
    rw [hz]
    norm_num
  · intro hconst
    have hA_ne : pearson_num m a a ≠ 0 := by
      intro h0
      apply hconst
      have hall := (centered_sq_eq_zero_iff (shared m a a).toFinset
        (rateOf m a) hcard).mp (by rw [← hnum]; exact h0)
      intro q hq q' hq'
      have h1 : q.1 ∈ (shared m a a).toFinset := (hmemS q.1).mpr ⟨q, hq, rfl⟩
      have h2 : q'.1 ∈ (shared m a a).toFinset := (hmemS q'.1).mpr ⟨q', hq', rfl⟩
      rw [← rateOf_mem m a q hnd hq, ← rateOf_mem m a q' hnd hq',
        hall q.1 h1, hall q'.1 h2]
    simp only [sim_pearson]
    rw [if_neg hlen]
    have hsqrt : Real.sqrt ((pearson_den_sq m a a : ℚ) : ℝ)
        = ((pearson_num m a a : ℚ) : ℝ) := by
      rw [hds]
      push_cast
      rw [show ((pearson_num m a a : ℝ) * (pearson_num m a a : ℝ))
          = (pearson_num m a a : ℝ) ^ 2 from (pow_two _).symm]
      rw [Real.sqrt_sq (by exact_mod_cast hA0)]
    rw [hsqrt]
    rw [if_neg (by exact_mod_cast hA_ne)]
    exact div_self (by exact_mod_cast hA_ne)
  · intro hconst
    have hA_eq : pearson_num m a a = 0 := by
      rw [hnum]
      apply (centered_sq_eq_zero_iff (shared m a a).toFinset
        (rateOf m a) hcard).mpr
      rcases hd : getRatings m a with _ | ⟨q0, rest⟩
      · exact absurd hd hne
      · have hc : ∀ i ∈ (shared m a a).toFinset, rateOf m a i = q0.2 := by
          intro i hi
          obtain ⟨q, hq, rfl⟩ := (hmemS i).mp hi
          rw [rateOf_mem m a q hnd hq]
          exact hconst q hq q0 (by rw [hd]; exact List.mem_cons_self _ _)
        intro i hi
        rw [hc i hi]
        rw [Finset.sum_congr rfl hc, Finset.sum_const, nsmul_eq_mul]
        field_simp
    simp only [sim_pearson]
    rw [if_neg hlen]
    have hsqrt : Real.sqrt ((pearson_den_sq m a a : ℚ) : ℝ) = 0 := by
      rw [hds, hA_eq]
      push_cast
      simp
    rw [hsqrt]
    rw [if_pos rfl]

/-- Counterexample to C3 as stated: the single-rating user `a` (rating map
`{x: 5}`) is present with one rating, `sim_distance` is 1, but `sim_pearson`
of `a` with itself is 0, not 1, because the Pearson denominator degenerates
to zero. -/
theorem C3_counterexample :
    ¬ (sim_distance [("a", [("x", 5)])] "a" "a" = 1
        ∧ sim_pearson [("a", [("x", 5)])] "a" "a" = 1) := by
  intro ⟨_, hp⟩
  have hlen : ¬ (shared [("a", [("x", 5)])] "a" "a").length = 0 := by
    simp [shared, keys, getRatings, alookup]
  have hden : pearson_den_sq [("a", [("x", 5)])] "a" "a" = 0 := by
    simp [pearson_den_sq, shared, keys, getRatings, rateOf, alookup]
  rw [sim_pearson] at hp
  rw [if_neg hlen] at hp
  rw [hden] at hp
  simp at hp

/-- Witness for the amended C3 at concrete inputs: a two-rating user with
distinct values has self-Pearson 1; a user with constant ratings has
self-Pearson 0; both have self-distance 1. -/
theorem C3_witness :
    sim_distance [("a", [("x", 1), ("y", 2)])] "a" "a" = 1
    ∧ sim_pearson [("a", [("x", 1), ("y", 2)])] "a" "a" = 1
    ∧ sim_pearson [("a", [("x", 5)])] "a" "a" = 0 := by
  have h1 := C3_self_similarity [("a", [("x", 1), ("y", 2)])] "a"
    (by simp [getRatings, alookup]) (by simp [keys, getRatings, alookup])
  have h2 := C3_self_similarity [("a", [("x", 5)])] "a"
    (by simp [getRatings, alookup]) (by simp [keys, getRatings, alookup])
  refine ⟨h1.1, h1.2.1 ?_, h2.2.2 ?_⟩
  · intro hcon
    have := hcon ("x", 1) (by simp [getRatings, alookup]) ("y", 2)
      (by simp [getRatings, alookup])
    norm_num at this
  · intro q hq q' hq'
    simp [getRatings, alookup] at hq hq'
    rw [hq, hq']

/-- C4: for every matrix and pair of present entities, `sim_distance` and
`sim_tanimoto` lie in `[0,1]`, `sim_pearson` lies in `[-1,1]`, and all three
are exactly 0 when the two entities share no rated counterpart keys. -/
theorem C4_similarity_ranges (m : Prefs) (p1 p2 : String)
    (_hp1 : p1 ∈ keys m) (_hp2 : p2 ∈ keys m)
    (hnd1 : (keys (getRatings m p1)).Nodup) :
    (0 ≤ sim_distance m p1 p2 ∧ sim_distance m p1 p2 ≤ 1)
    ∧ (0 ≤ sim_tanimoto m p1 p2 ∧ sim_tanimoto m p1 p2 ≤ 1)
    ∧ (-1 ≤ sim_pearson m p1 p2 ∧ sim_pearson m p1 p2 ≤ 1)
    ∧ ((∀ i ∈ keys (getRatings m p1), alookup (getRatings m p2) i = none) →
        sim_distance m p1 p2 = 0 ∧ sim_tanimoto m p1 p2 = 0
          ∧ sim_pearson m p1 p2 = 0) := by
  refine ⟨?_, ?_, ?_, ?_⟩
  · simp only [sim_distance]
    by_cases h0 : (shared m p1 p2).length = 0
    · rw [if_pos h0]
      norm_num
    · rw [if_neg h0]
      have hs : 0 ≤ ((shared m p1 p2).map
          (fun item => (rateOf m p1 item - rateOf m p2 item) ^ 2)).sum := by
        apply List.sum_nonneg
        intro x hx
        rw [List.mem_map] at hx
        obtain ⟨i, _, rfl⟩ := hx
        positivity
      constructor
      · positivity
      · rw [div_le_one (by linarith)]
        linarith
  · simp only [sim_tanimoto]
    by_cases h0 : (keys (getRatings m p1)).length = 0
        ∨ (keys (getRatings m p2)).length = 0 ∨ (shared m p1 p2).length = 0
    · rw [if_pos h0]
      norm_num
    · rw [if_neg h0]
      push_neg at h0
      obtain ⟨h1, h2, h3⟩ := h0
      have hs1 : (shared m p1 p2).length ≤ (keys (getRatings m p1)).length :=
        List.length_filter_le _ _
      have hs2 : (shared m p1 p2).length ≤ (keys (getRatings m p2)).length := by
        have hnd := shared_nodup m p1 p2 hnd1
        have hsub : ∀ i ∈ shared m p1 p2, i ∈ keys (getRatings m p2) := by
          intro i hi
          unfold shared at hi
          rw [List.mem_filter] at hi
          exact (alookup_isSome_iff_mem_keys _ _).mp hi.2
        calc (shared m p1 p2).length = (shared m p1 p2).toFinset.card :=
              (List.toFinset_card_of_nodup hnd).symm
          _ ≤ (keys (getRatings m p2)).toFinset.card :=
              Finset.card_le_card (fun i hi =>
                List.mem_toFinset.mpr (hsub i (List.mem_toFinset.mp hi)))
          _ ≤ (keys (getRatings m p2)).length := List.toFinset_card_le _
      have c1 : (0 : ℚ) < ((keys (getRatings m p1)).length : ℚ) := by
        exact_mod_cast Nat.pos_of_ne_zero h1
      have c2 : ((shared m p1 p2).length : ℚ)
          ≤ ((keys (getRatings m p2)).length : ℚ) := by
        exact_mod_cast hs2
      have c3 : ((shared m p1 p2).length : ℚ)
          ≤ ((keys (getRatings m p1)).length : ℚ) := by
        exact_mod_cast hs1
      have hden : (0 : ℚ) < ((keys (getRatings m p1)).length : ℚ)
          + ((keys (getRatings m p2)).length : ℚ)
          - ((shared m p1 p2).length : ℚ) := by
        linarith
      constructor
      · apply div_nonneg (by positivity) (le_of_lt hden)
      · rw [div_le_one hden]
        linarith
  · have habs : |sim_pearson m p1 p2| ≤ 1 := by
      simp only [sim_pearson]
      split_ifs with h0 hden
      · simp
      · simp
      · have hshnd : (shared m p1 p2).Nodup := shared_nodup m p1 p2 hnd1
        have hcard : (((shared m p1 p2).toFinset.card : ℕ) : ℚ) ≠ 0 := by
          rw [List.toFinset_card_of_nodup hshnd]
          exact_mod_cast h0
        have hA := centered_sq_nonneg (shared m p1 p2).toFinset (rateOf m p1) hcard
        have hB := centered_sq_nonneg (shared m p1 p2).toFinset (rateOf m p2) hcard
        have hcs := pearson_cauchy_schwarz (shared m p1 p2).toFinset
          (rateOf m p1) (rateOf m p2) hcard
        rw [← pearson_num_eq m p1 p2 hshnd, ← pearson_den_sq_eq m p1 p2 hshnd] at hcs
        have hdpos : 0 < Real.sqrt ((pearson_den_sq m p1 p2 : ℚ) : ℝ) :=
          lt_of_le_of_ne (Real.sqrt_nonneg _) (Ne.symm hden)
        have habs1 : |((pearson_num m p1 p2 : ℚ) : ℝ)|
            ≤ Real.sqrt ((pearson_den_sq m p1 p2 : ℚ) : ℝ) := by
          rw [← Real.sqrt_sq_eq_abs]
          apply Real.sqrt_le_sqrt
          exact_mod_cast hcs
        rw [abs_div, abs_of_pos hdpos, div_le_one hdpos]
        exact habs1
    exact abs_le.mp habs
  · intro hdisj
    have hsh : shared m p1 p2 = [] := by
      unfold shared
      rw [List.filter_eq_nil_iff]
      intro a ha
      rw [hdisj a ha]
      simp
    have hlen : (shared m p1 p2).length = 0 := by
      rw [hsh]
      rfl
    refine ⟨?_, ?_, ?_⟩
    · simp only [sim_distance]
      rw [if_pos hlen]
    · simp only [sim_tanimoto]
      rw [if_pos (Or.inr (Or.inr hlen))]
    · simp only [sim_pearson]
      rw [if_pos hlen]

/-- Witness for C4 at a concrete input. -/
theorem C4_witness :
    ((0 ≤ sim_distance [("A", [("x", 1), ("y", 2)]), ("B", [("x", 4)])] "A" "B"
      ∧ sim_distance [("A", [("x", 1), ("y", 2)]), ("B", [("x", 4)])] "A" "B" ≤ 1)
    ∧ (0 ≤ sim_tanimoto [("A", [("x", 1), ("y", 2)]), ("B", [("x", 4)])] "A" "B"
      ∧ sim_tanimoto [("A", [("x", 1), ("y", 2)]), ("B", [("x", 4)])] "A" "B" ≤ 1)
    ∧ (-1 ≤ sim_pearson [("A", [("x", 1), ("y", 2)]), ("B", [("x", 4)])] "A" "B"
      ∧ sim_pearson [("A", [("x", 1), ("y", 2)]), ("B", [("x", 4)])] "A" "B" ≤ 1)
    ∧ ((∀ i ∈ keys (getRatings [("A", [("x", 1), ("y", 2)]), ("B", [("x", 4)])] "A"),
        alookup (getRatings [("A", [("x", 1), ("y", 2)]), ("B", [("x", 4)])] "B") i = none) →
        sim_distance [("A", [("x", 1), ("y", 2)]), ("B", [("x", 4)])] "A" "B" = 0
        ∧ sim_tanimoto [("A", [("x", 1), ("y", 2)]), ("B", [("x", 4)])] "A" "B" = 0
        ∧ sim_pearson [("A", [("x", 1), ("y", 2)]), ("B", [("x", 4)])] "A" "B" = 0)) :=
  C4_similarity_ranges _ "A" "B" (by simp [keys]) (by simp [keys])
    (by simp [keys, getRatings, alookup])
